import Mathlib

/-!
Verification of `fix_super_calls.py`.

The script reads each file in a fixed list, applies two `re.sub` rewrites to
the whole file text, writes the file back when the text changed, and prints a
per-file outcome line plus a final summary.

File contents are modelled as `List Char`.  The two regular expressions,

  pattern 1 : super\(([0-9.]+),\s*(true|false)\s*\);
  pattern 2 : super\(([0-9.]+)\);

are deterministic on every input: each quantified class (`[0-9.]+`, `\s*`) is
followed in the pattern by a literal that is outside the class, so greedy
matching with backtracking coincides with maximal-munch matching, which is
what `matchTwo` and `matchOne` below implement.  `re.sub`'s leftmost,
non-overlapping scan (replacement text is not rescanned) is implemented by
`subTwo` and `subOne`.
-/

namespace FixSuper

/-- Character class `[0-9.]` of both patterns. -/
def isWChar (c : Char) : Bool := c.isDigit || c == '.'

/-- Python's `\s` class (ASCII part; the target files are ASCII Java sources). -/
def isPySpace (c : Char) : Bool :=
  c == ' ' || c == '\t' || c == '\n' || c == '\r' || c == '\x0b' || c == '\x0c'

/-- Consume an exact literal from the front of the input, as a regex literal does. -/
def dropLit : List Char → List Char → Option (List Char)
  | [], s => some s
  | _ :: _, [] => none
  | c :: cs, d :: ds => if c = d then dropLit cs ds else none

/-- The alternation `(true|false)`: `true` is tried first, as in the pattern. -/
def matchBool (s : List Char) : Option (List Char × List Char) :=
  match dropLit "true".data s with
  | some r => some ("true".data, r)
  | none =>
    match dropLit "false".data s with
    | some r => some ("false".data, r)
    | none => none

/-- Match of pattern 1, `super\(([0-9.]+),\s*(true|false)\s*\);`, at the head of
the input; returns (weight capture, boolean capture, rest of input). -/
def matchTwo (s : List Char) : Option (List Char × List Char × List Char) :=
  (dropLit "super(".data s).bind fun r1 =>
    if (r1.takeWhile isWChar).isEmpty then none else
    (dropLit [','] (r1.dropWhile isWChar)).bind fun r2 =>
      (matchBool (r2.dropWhile isPySpace)).bind fun p =>
        (dropLit ");".data (p.2.dropWhile isPySpace)).bind fun r5 =>
          some (r1.takeWhile isWChar, p.1, r5)

/-- Match of pattern 2, `super\(([0-9.]+)\);`, at the head of the input;
returns (weight capture, rest of input). -/
def matchOne (s : List Char) : Option (List Char × List Char) :=
  (dropLit "super(".data s).bind fun r1 =>
    if (r1.takeWhile isWChar).isEmpty then none else
    (dropLit ");".data (r1.dropWhile isWChar)).bind fun r2 =>
      some (r1.takeWhile isWChar, r2)

/-- Replacement of `replace_two_params` in the source:
`f'super();\n        setWeight({weight});\n        setEnabled({enabled});'`. -/
def replace_two_params (weight enabled : List Char) : List Char :=
  "super();\n        setWeight(".data ++ weight ++
    ");\n        setEnabled(".data ++ enabled ++ ");".data

/-- Replacement of `replace_one_param` in the source:
`f'super();\n        setWeight({weight});'`. -/
def replace_one_param (weight : List Char) : List Char :=
  "super();\n        setWeight(".data ++ weight ++ ");".data

/-- The text region consumed by a successful pattern-1 match, as a function of
the two captures and the two whitespace runs. -/
def shapeTwo (w ws1 b ws2 : List Char) : List Char :=
  "super(".data ++ w ++ [','] ++ ws1 ++ b ++ ws2 ++ [')', ';']

/-- The text region consumed by a successful pattern-2 match. -/
def shapeOne (w : List Char) : List Char :=
  "super(".data ++ w ++ [')', ';']

/-- Side conditions that the captures of a pattern-1 match satisfy. -/
def ShapeTwoOk (w ws1 b ws2 : List Char) : Prop :=
  w ≠ [] ∧ (∀ c ∈ w, isWChar c) ∧ (∀ c ∈ ws1, isPySpace c) ∧
    (b = "true".data ∨ b = "false".data) ∧ (∀ c ∈ ws2, isPySpace c)

/-- Side conditions that the capture of a pattern-2 match satisfies. -/
def ShapeOneOk (w : List Char) : Prop :=
  w ≠ [] ∧ (∀ c ∈ w, isWChar c)

theorem dropLit_eq_some {l s r : List Char} :
    dropLit l s = some r ↔ s = l ++ r := by
  induction l generalizing s with
  | nil => cases s <;> simp [dropLit]
  | cons c cs ih =>
    cases s with
    | nil => simp [dropLit]
    | cons d ds =>
      by_cases h : c = d
      · subst h
        simp [dropLit, ih]
      · simp only [dropLit, if_neg h, List.cons_append]
        constructor
        · intro h'; cases h'
        · intro h'
          injection h' with h1 h2
          exact absurd h1.symm h

theorem takeWhile_append_stop {p : Char → Bool} {u v : List Char} {d : Char}
    (hu : ∀ c ∈ u, p c) (hd : p d = false) :
    (u ++ d :: v).takeWhile p = u := by
  induction u with
  | nil => simp [List.takeWhile, hd]
  | cons a u ih =>
    have ha : p a = true := hu a (by simp)
    simp only [List.cons_append, List.takeWhile, ha]
    simp [ih (fun c hc => hu c (by simp [hc]))]

theorem dropWhile_append_stop {p : Char → Bool} {u v : List Char} {d : Char}
    (hu : ∀ c ∈ u, p c) (hd : p d = false) :
    (u ++ d :: v).dropWhile p = d :: v := by
  induction u with
  | nil => simp [List.dropWhile, hd]
  | cons a u ih =>
    have ha : p a = true := hu a (by simp)
    simp only [List.cons_append, List.dropWhile, ha]
    exact ih (fun c hc => hu c (by simp [hc]))

theorem matchBool_some_iff {s b r : List Char} :
    matchBool s = some (b, r) ↔
      (b = "true".data ∨ b = "false".data) ∧ s = b ++ r := by
  constructor
  · intro h
    unfold matchBool at h
    split at h
    · next h1 =>
      injection h with h'
      injection h' with hb hr
      subst hb; subst hr
      exact ⟨Or.inl rfl, dropLit_eq_some.mp h1⟩
    · next h1 =>
      split at h
      · next h2 =>
        injection h with h'
        injection h' with hb hr
        subst hb; subst hr
        exact ⟨Or.inr rfl, dropLit_eq_some.mp h2⟩
      · cases h
  · rintro ⟨hb | hb, hs⟩ <;> subst hb <;> subst hs <;> unfold matchBool
    · rw [show dropLit "true".data ("true".data ++ r) = some r from dropLit_eq_some.mpr rfl]
    · rw [show dropLit "true".data ("false".data ++ r) = none from by
        simp [dropLit]]
      rw [show dropLit "false".data ("false".data ++ r) = some r from dropLit_eq_some.mpr rfl]

theorem ne_nil_of_isEmpty_ne {l : List Char} (h : ¬ l.isEmpty = true) : l ≠ [] := by
  intro hnil
  rw [hnil] at h
  exact h rfl

theorem matchTwo_some_iff {s w b r : List Char} :
    matchTwo s = some (w, b, r) ↔
      ∃ ws1 ws2, s = shapeTwo w ws1 b ws2 ++ r ∧ ShapeTwoOk w ws1 b ws2 := by
  constructor
  · intro h
    unfold matchTwo at h
    obtain ⟨r1, h1, h⟩ := Option.bind_eq_some.mp h
    by_cases he : (r1.takeWhile isWChar).isEmpty
    · rw [if_pos he] at h; cases h
    rw [if_neg he] at h
    obtain ⟨r2, h2, h⟩ := Option.bind_eq_some.mp h
    obtain ⟨p, h3, h⟩ := Option.bind_eq_some.mp h
    obtain ⟨b', r4⟩ := p
    dsimp only [] at h
    obtain ⟨r5, h4, h⟩ := Option.bind_eq_some.mp h
    injection h with h'
    injection h' with hw h''
    injection h'' with hb hr
    subst hw; subst hb; subst hr
    obtain ⟨hbval, hbs⟩ := matchBool_some_iff.mp h3
    set W := r1.takeWhile isWChar with hW
    set P1 := r2.takeWhile isPySpace with hP1
    set P2 := r4.takeWhile isPySpace with hP2
    have hs : s = "super(".data ++ r1 := dropLit_eq_some.mp h1
    have hr1 : r1 = W ++ (',' :: r2) := by
      rw [hW]
      conv_lhs => rw [← List.takeWhile_append_dropWhile isWChar r1]
      rw [dropLit_eq_some.mp h2]
      simp
    have hr2 : r2 = P1 ++ (b' ++ r4) := by
      rw [hP1]
      conv_lhs => rw [← List.takeWhile_append_dropWhile isPySpace r2]
      rw [hbs]
    have hr4 : r4 = P2 ++ (')' :: ';' :: r5) := by
      rw [hP2]
      conv_lhs => rw [← List.takeWhile_append_dropWhile isPySpace r4]
      rw [dropLit_eq_some.mp h4]
      simp
    refine ⟨P1, P2, ?_, ?_⟩
    · rw [hs, hr1, hr2, hr4]
      simp [shapeTwo]
    · exact ⟨ne_nil_of_isEmpty_ne he,
        fun c hc => List.mem_takeWhile_imp (hW ▸ hc),
        fun c hc => List.mem_takeWhile_imp (hP1 ▸ hc), hbval,
        fun c hc => List.mem_takeWhile_imp (hP2 ▸ hc)⟩
  · rintro ⟨ws1, ws2, hs, hne, hww, hws1, hbval, hws2⟩
    subst hs
    unfold matchTwo
    refine Option.bind_eq_some.mpr
      ⟨w ++ ',' :: (ws1 ++ (b ++ (ws2 ++ ')' :: ';' :: r))), ?_, ?_⟩
    · apply dropLit_eq_some.mpr
      simp [shapeTwo]
    have hcom : isWChar ',' = false := by decide
    rw [takeWhile_append_stop hww hcom, dropWhile_append_stop hww hcom]
    have hwe : ¬ (w.isEmpty = true) := by
      cases w with
      | nil => exact absurd rfl hne
      | cons a l => simp
    rw [if_neg hwe]
    refine Option.bind_eq_some.mpr
      ⟨ws1 ++ (b ++ (ws2 ++ ')' :: ';' :: r)), dropLit_eq_some.mpr rfl, ?_⟩
    refine Option.bind_eq_some.mpr ⟨(b, ws2 ++ (')' :: ';' :: r)), ?_, ?_⟩
    · have hbhead : ∃ c cs, b = c :: cs ∧ isPySpace c = false := by
        rcases hbval with hb | hb <;> subst hb
        · exact ⟨'t', "rue".data, rfl, by decide⟩
        · exact ⟨'f', "alse".data, rfl, by decide⟩
      obtain ⟨c, cs, hbc, hcns⟩ := hbhead
      have hdw1 : (ws1 ++ (b ++ (ws2 ++ (')' :: ';' :: r)))).dropWhile isPySpace =
          b ++ (ws2 ++ (')' :: ';' :: r)) := by
        rw [hbc]
        simpa using dropWhile_append_stop (u := ws1)
          (v := cs ++ (ws2 ++ (')' :: ';' :: r))) hws1 hcns
      rw [show ws1 ++ (b ++ (ws2 ++ ')' :: ';' :: r)) =
          ws1 ++ (b ++ (ws2 ++ (')' :: ';' :: r))) from rfl, hdw1]
      exact matchBool_some_iff.mpr ⟨hbval, rfl⟩
    · dsimp only []
      refine Option.bind_eq_some.mpr ⟨r, ?_, rfl⟩
      have hpr : isPySpace ')' = false := by decide
      rw [dropWhile_append_stop hws2 hpr]
      exact dropLit_eq_some.mpr rfl

theorem matchOne_some_iff {s w r : List Char} :
    matchOne s = some (w, r) ↔ s = shapeOne w ++ r ∧ ShapeOneOk w := by
  constructor
  · intro h
    unfold matchOne at h
    obtain ⟨r1, h1, h⟩ := Option.bind_eq_some.mp h
    by_cases he : (r1.takeWhile isWChar).isEmpty
    · rw [if_pos he] at h; cases h
    rw [if_neg he] at h
    obtain ⟨r2, h2, h⟩ := Option.bind_eq_some.mp h
    injection h with h'
    injection h' with hw hr
    subst hw; subst hr
    set W := r1.takeWhile isWChar with hW
    have hs : s = "super(".data ++ r1 := dropLit_eq_some.mp h1
    have hr1 : r1 = W ++ (')' :: ';' :: r2) := by
      rw [hW]
      conv_lhs => rw [← List.takeWhile_append_dropWhile isWChar r1]
      rw [dropLit_eq_some.mp h2]
      simp
    constructor
    · rw [hs, hr1]
      simp [shapeOne]
    · exact ⟨ne_nil_of_isEmpty_ne he, fun c hc => List.mem_takeWhile_imp (hW ▸ hc)⟩
  · rintro ⟨hs, hne, hww⟩
    subst hs
    unfold matchOne
    refine Option.bind_eq_some.mpr ⟨w ++ ')' :: (';' :: r), ?_, ?_⟩
    · apply dropLit_eq_some.mpr
      simp [shapeOne]
    have hpr : isWChar ')' = false := by decide
    rw [takeWhile_append_stop hww hpr, dropWhile_append_stop hww hpr]
    have hwe : ¬ (w.isEmpty = true) := by
      cases w with
      | nil => exact absurd rfl hne
      | cons a l => simp
    rw [if_neg hwe]
    exact Option.bind_eq_some.mpr ⟨r, dropLit_eq_some.mpr rfl, rfl⟩

end FixSuper

namespace FixSuper

theorem matchTwo_length_lt {s w b r : List Char} (h : matchTwo s = some (w, b, r)) :
    r.length < s.length := by
  obtain ⟨ws1, ws2, hs, _⟩ := matchTwo_some_iff.mp h
  subst hs
  simp [shapeTwo]
  omega

theorem matchOne_length_lt {s w r : List Char} (h : matchOne s = some (w, r)) :
    r.length < s.length := by
  obtain ⟨hs, _⟩ := matchOne_some_iff.mp h
  subst hs
  simp [shapeOne]
  omega

/-- The first `re.sub` call: leftmost non-overlapping replacement of pattern 1,
replacement text not rescanned, scanning resuming after each match. -/
def subTwo (s : List Char) : List Char :=
  match s with
  | [] => []
  | c :: cs =>
    match _h : matchTwo (c :: cs) with
    | some (w, b, r) => replace_two_params w b ++ subTwo r
    | none => c :: subTwo cs
termination_by s.length
decreasing_by
  · exact matchTwo_length_lt _h
  · simp only [List.length_cons]; omega

/-- The second `re.sub` call: leftmost non-overlapping replacement of pattern 2. -/
def subOne (s : List Char) : List Char :=
  match s with
  | [] => []
  | c :: cs =>
    match _h : matchOne (c :: cs) with
    | some (w, r) => replace_one_param w ++ subOne r
    | none => c :: subOne cs
termination_by s.length
decreasing_by
  · exact matchOne_length_lt _h
  · simp only [List.length_cons]; omega

/-- The whole-file transformation: pattern 1 is applied first, then pattern 2,
exactly as the two `re.sub` calls run in the source. -/
def transform (s : List Char) : List Char := subOne (subTwo s)

theorem subTwo_nil : subTwo [] = [] := by rw [subTwo]

theorem subTwo_cons_some {c : Char} {cs w b r : List Char}
    (h : matchTwo (c :: cs) = some (w, b, r)) :
    subTwo (c :: cs) = replace_two_params w b ++ subTwo r := by
  rw [subTwo]
  split
  · next w' b' r' h' =>
    have ht := h.symm.trans h'
    injection ht with t
    injection t with t1 t2
    injection t2 with t3 t4
    subst t1; subst t3; subst t4
    rfl
  · next h' =>
    rw [h] at h'
    cases h'

theorem subTwo_cons_none {c : Char} {cs : List Char}
    (h : matchTwo (c :: cs) = none) :
    subTwo (c :: cs) = c :: subTwo cs := by
  rw [subTwo]
  split
  · next w' b' r' h' =>
    rw [h] at h'
    cases h'
  · rfl

theorem subOne_nil : subOne [] = [] := by rw [subOne]

theorem subOne_cons_some {c : Char} {cs w r : List Char}
    (h : matchOne (c :: cs) = some (w, r)) :
    subOne (c :: cs) = replace_one_param w ++ subOne r := by
  rw [subOne]
  split
  · next w' r' h' =>
    have ht := h.symm.trans h'
    injection ht with t
    injection t with t1 t2
    subst t1; subst t2
    rfl
  · next h' =>
    rw [h] at h'
    cases h'

theorem subOne_cons_none {c : Char} {cs : List Char}
    (h : matchOne (c :: cs) = none) :
    subOne (c :: cs) = c :: subOne cs := by
  rw [subOne]
  split
  · next w' r' h' =>
    rw [h] at h'
    cases h'
  · rfl

/-- Some suffix of `s` begins a pattern-1 match. -/
def OccursTwo (s : List Char) : Prop := ∃ u v, s = u ++ v ∧ matchTwo v ≠ none

/-- Some suffix of `s` begins a pattern-2 match. -/
def OccursOne (s : List Char) : Prop := ∃ u v, s = u ++ v ∧ matchOne v ≠ none

/-- No suffix of `s` begins a pattern-1 match. -/
def NoMatchTwo (s : List Char) : Prop := ∀ u v, s = u ++ v → matchTwo v = none

/-- No suffix of `s` begins a pattern-2 match. -/
def NoMatchOne (s : List Char) : Prop := ∀ u v, s = u ++ v → matchOne v = none

theorem noMatchTwo_iff {s : List Char} : NoMatchTwo s ↔ ¬ OccursTwo s := by
  constructor
  · rintro h ⟨u, v, huv, hne⟩
    exact hne (h u v huv)
  · intro h u v huv
    cases hm : matchTwo v with
    | none => rfl
    | some p => exact absurd ⟨u, v, huv, by simp [hm]⟩ h

theorem noMatchOne_iff {s : List Char} : NoMatchOne s ↔ ¬ OccursOne s := by
  constructor
  · rintro h ⟨u, v, huv, hne⟩
    exact hne (h u v huv)
  · intro h u v huv
    cases hm : matchOne v with
    | none => rfl
    | some p => exact absurd ⟨u, v, huv, by simp [hm]⟩ h

theorem noMatchTwo_tail {c : Char} {cs : List Char} (h : NoMatchTwo (c :: cs)) :
    NoMatchTwo cs := fun u v huv => h (c :: u) v (by rw [huv]; rfl)

theorem noMatchOne_tail {c : Char} {cs : List Char} (h : NoMatchOne (c :: cs)) :
    NoMatchOne cs := fun u v huv => h (c :: u) v (by rw [huv]; rfl)

theorem matchTwo_nil : matchTwo [] = none := rfl

theorem matchOne_nil : matchOne [] = none := rfl

theorem subTwo_id {s : List Char} (h : NoMatchTwo s) : subTwo s = s := by
  induction s with
  | nil => exact subTwo_nil
  | cons c cs ih =>
    rw [subTwo_cons_none (h [] (c :: cs) rfl), ih (noMatchTwo_tail h)]

theorem subOne_id {s : List Char} (h : NoMatchOne s) : subOne s = s := by
  induction s with
  | nil => exact subOne_nil
  | cons c cs ih =>
    rw [subOne_cons_none (h [] (c :: cs) rfl), ih (noMatchOne_tail h)]

/-- Executable check for `OccursTwo`. -/
def occursTwoB : List Char → Bool
  | [] => false
  | c :: cs => (matchTwo (c :: cs)).isSome || occursTwoB cs

/-- Executable check for `OccursOne`. -/
def occursOneB : List Char → Bool
  | [] => false
  | c :: cs => (matchOne (c :: cs)).isSome || occursOneB cs

theorem noMatchTwo_of_occursTwoB {s : List Char} (h : occursTwoB s = false) :
    NoMatchTwo s := by
  induction s with
  | nil =>
    intro u v huv
    obtain ⟨hu, hv⟩ := List.append_eq_nil.mp huv.symm
    rw [hv]
    exact matchTwo_nil
  | cons c cs ih =>
    rw [occursTwoB] at h
    simp only [Bool.or_eq_false_iff] at h
    intro u v huv
    cases u with
    | nil =>
      simp only [List.nil_append] at huv
      subst huv
      cases hm : matchTwo (c :: cs) with
      | none => rfl
      | some p =>
        rw [hm] at h
        simp at h
    | cons d u' =>
      injection huv with h1 h2
      exact ih h.2 u' v h2

theorem noMatchOne_of_occursOneB {s : List Char} (h : occursOneB s = false) :
    NoMatchOne s := by
  induction s with
  | nil =>
    intro u v huv
    obtain ⟨hu, hv⟩ := List.append_eq_nil.mp huv.symm
    rw [hv]
    exact matchOne_nil
  | cons c cs ih =>
    rw [occursOneB] at h
    simp only [Bool.or_eq_false_iff] at h
    intro u v huv
    cases u with
    | nil =>
      simp only [List.nil_append] at huv
      subst huv
      cases hm : matchOne (c :: cs) with
      | none => rfl
      | some p =>
        rw [hm] at h
        simp at h
    | cons d u' =>
      injection huv with h1 h2
      exact ih h.2 u' v h2

end FixSuper

namespace FixSuper

theorem wchar_ne_s {c : Char} (h : isWChar c = true) : c ≠ 's' := by
  intro h'
  subst h'
  exact absurd h (by decide)

theorem pyspace_ne_s {c : Char} (h : isPySpace c = true) : c ≠ 's' := by
  intro h'
  subst h'
  exact absurd h (by decide)

theorem shapeTwo_cons {w ws1 b ws2 : List Char} :
    shapeTwo w ws1 b ws2 =
      's' :: ('u' :: 'p' :: 'e' :: 'r' :: '(' ::
        (w ++ ',' :: (ws1 ++ (b ++ (ws2 ++ [')', ';']))))) := by
  simp [shapeTwo]

theorem shapeOne_cons {w : List Char} :
    shapeOne w = 's' :: ('u' :: 'p' :: 'e' :: 'r' :: '(' :: (w ++ [')', ';'])) := by
  simp [shapeOne]

theorem matchTwo_ne_head {c : Char} {l : List Char} (h : c ≠ 's') :
    matchTwo (c :: l) = none := by
  cases hm : matchTwo (c :: l) with
  | none => rfl
  | some p =>
    obtain ⟨w, b, r⟩ := p
    obtain ⟨ws1, ws2, hv, _⟩ := matchTwo_some_iff.mp hm
    rw [shapeTwo_cons] at hv
    simp only [List.cons_append] at hv
    injection hv with h1 _
    exact absurd h1 h

theorem matchOne_ne_head {c : Char} {l : List Char} (h : c ≠ 's') :
    matchOne (c :: l) = none := by
  cases hm : matchOne (c :: l) with
  | none => rfl
  | some p =>
    obtain ⟨w, r⟩ := p
    obtain ⟨hv, _⟩ := matchOne_some_iff.mp hm
    rw [shapeOne_cons] at hv
    simp only [List.cons_append] at hv
    injection hv with h1 _
    exact absurd h1 h

theorem matchTwo_ne_two {c : Char} {l : List Char} (h : c ≠ 'u') :
    matchTwo ('s' :: c :: l) = none := by
  cases hm : matchTwo ('s' :: c :: l) with
  | none => rfl
  | some p =>
    obtain ⟨w, b, r⟩ := p
    obtain ⟨ws1, ws2, hv, _⟩ := matchTwo_some_iff.mp hm
    rw [shapeTwo_cons] at hv
    simp only [List.cons_append] at hv
    injection hv with h1 h2
    injection h2 with h3 _
    exact absurd h3 h

theorem matchOne_ne_two {c : Char} {l : List Char} (h : c ≠ 'u') :
    matchOne ('s' :: c :: l) = none := by
  cases hm : matchOne ('s' :: c :: l) with
  | none => rfl
  | some p =>
    obtain ⟨w, r⟩ := p
    obtain ⟨hv, _⟩ := matchOne_some_iff.mp hm
    rw [shapeOne_cons] at hv
    simp only [List.cons_append] at hv
    injection hv with h1 h2
    injection h2 with h3 _
    exact absurd h3 h

theorem matchTwo_none_nw {c : Char} {l : List Char} (h : isWChar c = false) :
    matchTwo ("super(".data ++ c :: l) = none := by
  cases hm : matchTwo ("super(".data ++ c :: l) with
  | none => rfl
  | some p =>
    obtain ⟨w, b, r⟩ := p
    obtain ⟨ws1, ws2, hv, hne, hww, _⟩ := matchTwo_some_iff.mp hm
    have hv' : "super(".data ++ (c :: l) =
        "super(".data ++ (w ++ ',' :: (ws1 ++ (b ++ (ws2 ++ [')', ';'] ++ r)))) := by
      rw [hv, shapeTwo_cons]
      simp
    have hcl := List.append_cancel_left hv'
    obtain ⟨d, w', rfl⟩ := List.exists_cons_of_ne_nil hne
    simp only [List.cons_append] at hcl
    injection hcl with h1 _
    rw [h1] at h
    exact absurd (hww d (by simp)) (by simp [h])

theorem matchOne_none_nw {c : Char} {l : List Char} (h : isWChar c = false) :
    matchOne ("super(".data ++ c :: l) = none := by
  cases hm : matchOne ("super(".data ++ c :: l) with
  | none => rfl
  | some p =>
    obtain ⟨w, r⟩ := p
    obtain ⟨hv, hne, hww⟩ := matchOne_some_iff.mp hm
    have hv' : "super(".data ++ (c :: l) =
        "super(".data ++ (w ++ [')', ';'] ++ r) := by
      rw [hv, shapeOne_cons]
      simp
    have hcl := List.append_cancel_left hv'
    obtain ⟨d, w', rfl⟩ := List.exists_cons_of_ne_nil hne
    simp only [List.cons_append] at hcl
    injection hcl with h1 _
    rw [h1] at h
    exact absurd (hww d (by simp)) (by simp [h])

theorem runs_split {p : Char → Bool} {u1 u2 v1 v2 : List Char} {d1 d2 : Char}
    (h1 : ∀ c ∈ u1, p c) (hd1 : p d1 = false) (h2 : ∀ c ∈ u2, p c) (hd2 : p d2 = false)
    (h : u1 ++ d1 :: v1 = u2 ++ d2 :: v2) : u1 = u2 ∧ d1 = d2 ∧ v1 = v2 := by
  have ht := congrArg (List.takeWhile p) h
  rw [takeWhile_append_stop h1 hd1, takeWhile_append_stop h2 hd2] at ht
  subst ht
  have hc := List.append_cancel_left h
  injection hc with hd hv
  exact ⟨rfl, hd, hv⟩

theorem matchTwo_none_after_w {w l : List Char} (hw : ∀ c ∈ w, isWChar c) :
    matchTwo ("super(".data ++ w ++ ')' :: l) = none := by
  cases hm : matchTwo ("super(".data ++ w ++ ')' :: l) with
  | none => rfl
  | some p =>
    obtain ⟨w', b, r⟩ := p
    obtain ⟨ws1, ws2, hv, hne, hww, _⟩ := matchTwo_some_iff.mp hm
    have hv' : "super(".data ++ (w ++ ')' :: l) =
        "super(".data ++ (w' ++ ',' :: (ws1 ++ (b ++ (ws2 ++ [')', ';'] ++ r)))) := by
      rw [← List.append_assoc, hv, shapeTwo_cons]
      simp
    have hcl := List.append_cancel_left hv'
    obtain ⟨_, hd, _⟩ := runs_split hw (by decide) hww (by decide) hcl
    cases hd

theorem matchOne_none_after_comma {w l : List Char} (hw : ∀ c ∈ w, isWChar c) :
    matchOne ("super(".data ++ w ++ ',' :: l) = none := by
  cases hm : matchOne ("super(".data ++ w ++ ',' :: l) with
  | none => rfl
  | some p =>
    obtain ⟨w', r⟩ := p
    obtain ⟨hv, hne, hww⟩ := matchOne_some_iff.mp hm
    have hv' : "super(".data ++ (w ++ ',' :: l) =
        "super(".data ++ (w' ++ ')' :: (';' :: r)) := by
      rw [← List.append_assoc, hv, shapeOne_cons]
      simp
    have hcl := List.append_cancel_left hv'
    obtain ⟨_, hd, _⟩ := runs_split hw (by decide) hww (by decide) hcl
    cases hd

/-- Boolean check: no character `s` immediately followed by `u` anywhere in the list. -/
def noSU : List Char → Bool
  | [] => true
  | [_] => true
  | a :: b :: l => !(a == 's' && b == 'u') && noSU (b :: l)

theorem noSU_tail {a : Char} {l : List Char} (h : noSU (a :: l) = true) :
    noSU l = true := by
  cases l with
  | nil => rfl
  | cons b l' =>
    simp only [noSU, Bool.and_eq_true] at h
    exact h.2

theorem noSU_split {x y l : List Char} (h : noSU l = true)
    (hl : l = x ++ 's' :: 'u' :: y) : False := by
  induction x generalizing l with
  | nil =>
    subst hl
    simp [noSU] at h
  | cons a x ih =>
    subst hl
    exact ih (noSU_tail h) rfl

theorem noSU_cons_of_ne {c : Char} {l : List Char} (h : noSU l = true) (hc : c ≠ 's') :
    noSU (c :: l) = true := by
  cases l with
  | nil => rfl
  | cons b l' =>
    simp only [noSU, Bool.and_eq_true, h, and_true]
    simp [hc]

theorem noSU_cons_s {b : Char} {l : List Char} (h : noSU (b :: l) = true) (hb : b ≠ 'u') :
    noSU ('s' :: b :: l) = true := by
  simp only [noSU, Bool.and_eq_true, h, and_true]
  simp [hb]

theorem noSU_append_notS {u l : List Char} (hu : ∀ c ∈ u, c ≠ 's')
    (h : noSU l = true) : noSU (u ++ l) = true := by
  induction u with
  | nil => simpa
  | cons a u ih =>
    rw [List.cons_append]
    exact noSU_cons_of_ne (ih fun c hc => hu c (by simp [hc])) (hu a (by simp))

theorem noSU_bool {b l : List Char} (hb : b = "true".data ∨ b = "false".data)
    (h : noSU l = true) : noSU (b ++ l) = true := by
  rcases hb with hb | hb <;> subst hb
  · exact noSU_append_notS (by decide) h
  · have n1 : noSU ('e' :: l) = true := noSU_cons_of_ne h (by decide)
    have n2 : noSU ('s' :: 'e' :: l) = true := noSU_cons_s n1 (by decide)
    have n3 : noSU ('l' :: 's' :: 'e' :: l) = true := noSU_cons_of_ne n2 (by decide)
    have n4 : noSU ('a' :: 'l' :: 's' :: 'e' :: l) = true := noSU_cons_of_ne n3 (by decide)
    exact noSU_cons_of_ne n4 (by decide)

theorem shapeTwo_tail_noSU {w ws1 b ws2 : List Char} (hok : ShapeTwoOk w ws1 b ws2) :
    noSU ('u' :: 'p' :: 'e' :: 'r' :: '(' ::
      (w ++ ',' :: (ws1 ++ (b ++ (ws2 ++ [')', ';']))))) = true := by
  obtain ⟨hne, hww, hws1, hbval, hws2⟩ := hok
  have n1 : noSU [')', ';'] = true := by decide
  have n2 : noSU (ws2 ++ [')', ';']) = true :=
    noSU_append_notS (fun c hc => pyspace_ne_s (hws2 c hc)) n1
  have n3 : noSU (b ++ (ws2 ++ [')', ';'])) = true :=
    noSU_bool hbval n2
  have n4 : noSU (ws1 ++ (b ++ (ws2 ++ [')', ';']))) = true :=
    noSU_append_notS (fun c hc => pyspace_ne_s (hws1 c hc)) n3
  have n5 : noSU (',' :: (ws1 ++ (b ++ (ws2 ++ [')', ';'])))) = true :=
    noSU_cons_of_ne n4 (by decide)
  have n6 : noSU (w ++ ',' :: (ws1 ++ (b ++ (ws2 ++ [')', ';'])))) = true :=
    noSU_append_notS (fun c hc => wchar_ne_s (hww c hc)) n5
  exact noSU_append_notS (u := "uper(".data) (by decide) n6

theorem shapeOne_tail_noSU {w : List Char} (hok : ShapeOneOk w) :
    noSU ('u' :: 'p' :: 'e' :: 'r' :: '(' :: (w ++ [')', ';'])) = true := by
  obtain ⟨hne, hww⟩ := hok
  have n1 : noSU [')', ';'] = true := by decide
  have n2 : noSU (w ++ [')', ';']) = true :=
    noSU_append_notS (fun c hc => wchar_ne_s (hww c hc)) n1
  exact noSU_append_notS (u := "uper(".data) (by decide) n2

theorem shapeTwo_no_inner_su {w ws1 b ws2 x y : List Char} (hok : ShapeTwoOk w ws1 b ws2)
    (hx : shapeTwo w ws1 b ws2 = x ++ 's' :: 'u' :: y) (hne : x ≠ []) : False := by
  obtain ⟨c, x', rfl⟩ := List.exists_cons_of_ne_nil hne
  rw [shapeTwo_cons] at hx
  simp only [List.cons_append] at hx
  injection hx with h1 h2
  exact noSU_split (shapeTwo_tail_noSU hok) h2

theorem shapeOne_no_inner_su {w x y : List Char} (hok : ShapeOneOk w)
    (hx : shapeOne w = x ++ 's' :: 'u' :: y) (hne : x ≠ []) : False := by
  obtain ⟨c, x', rfl⟩ := List.exists_cons_of_ne_nil hne
  rw [shapeOne_cons] at hx
  simp only [List.cons_append] at hx
  injection hx with h1 h2
  exact noSU_split (shapeOne_tail_noSU hok) h2

theorem shapeTwo_not_end_s {w ws1 b ws2 x : List Char}
    (hx : shapeTwo w ws1 b ws2 = x ++ ['s']) : False := by
  have h2 : shapeTwo w ws1 b ws2 =
      ("super(".data ++ w ++ [','] ++ ws1 ++ b ++ ws2 ++ [')']) ++ [';'] := by
    simp [shapeTwo]
  rw [h2] at hx
  obtain ⟨_, h4⟩ := List.append_inj' hx rfl
  simp at h4

theorem shapeOne_not_end_s {w x : List Char} (hx : shapeOne w = x ++ ['s']) : False := by
  have h2 : shapeOne w = ("super(".data ++ w ++ [')']) ++ [';'] := by
    simp [shapeOne]
  rw [h2] at hx
  obtain ⟨_, h4⟩ := List.append_inj' hx rfl
  simp at h4

end FixSuper

namespace FixSuper

/-- No nonempty suffix of `B` begins a pattern-1 match, whatever text follows. -/
def Guard2 (B : List Char) : Prop :=
  ∀ e t, e <:+ B → e ≠ [] → matchTwo (e ++ t) = none

/-- No nonempty suffix of `B` begins a pattern-2 match, whatever text follows. -/
def Guard1 (B : List Char) : Prop :=
  ∀ e t, e <:+ B → e ≠ [] → matchOne (e ++ t) = none

theorem guard2_nil : Guard2 [] := by
  intro e t he hne
  exact absurd (List.suffix_nil.mp he) hne

theorem guard1_nil : Guard1 [] := by
  intro e t he hne
  exact absurd (List.suffix_nil.mp he) hne

theorem guard2_cons {c : Char} {B : List Char}
    (hhead : ∀ t, matchTwo (c :: (B ++ t)) = none) (hB : Guard2 B) : Guard2 (c :: B) := by
  intro e t he hne
  rcases List.suffix_cons_iff.mp he with he1 | he2
  · subst he1
    simpa using hhead t
  · exact hB e t he2 hne

theorem guard1_cons {c : Char} {B : List Char}
    (hhead : ∀ t, matchOne (c :: (B ++ t)) = none) (hB : Guard1 B) : Guard1 (c :: B) := by
  intro e t he hne
  rcases List.suffix_cons_iff.mp he with he1 | he2
  · subst he1
    simpa using hhead t
  · exact hB e t he2 hne

theorem guard2_cons_of_ne {c : Char} {B : List Char} (h : c ≠ 's') (hB : Guard2 B) :
    Guard2 (c :: B) :=
  guard2_cons (fun _ => matchTwo_ne_head h) hB

theorem guard1_cons_of_ne {c : Char} {B : List Char} (h : c ≠ 's') (hB : Guard1 B) :
    Guard1 (c :: B) :=
  guard1_cons (fun _ => matchOne_ne_head h) hB

theorem guard2_cons_s {c : Char} {B : List Char} (h : c ≠ 'u') (hB : Guard2 (c :: B)) :
    Guard2 ('s' :: c :: B) :=
  guard2_cons (fun _ => matchTwo_ne_two h) hB

theorem guard1_cons_s {c : Char} {B : List Char} (h : c ≠ 'u') (hB : Guard1 (c :: B)) :
    Guard1 ('s' :: c :: B) :=
  guard1_cons (fun _ => matchOne_ne_two h) hB

theorem guard2_append_notS {u B : List Char} (hu : ∀ c ∈ u, c ≠ 's') (hB : Guard2 B) :
    Guard2 (u ++ B) := by
  induction u with
  | nil => simpa using hB
  | cons a u ih =>
    rw [List.cons_append]
    exact guard2_cons_of_ne (hu a (by simp)) (ih fun c hc => hu c (by simp [hc]))

theorem guard1_append_notS {u B : List Char} (hu : ∀ c ∈ u, c ≠ 's') (hB : Guard1 B) :
    Guard1 (u ++ B) := by
  induction u with
  | nil => simpa using hB
  | cons a u ih =>
    rw [List.cons_append]
    exact guard1_cons_of_ne (hu a (by simp)) (ih fun c hc => hu c (by simp [hc]))

theorem guard2_bool {b B : List Char} (hb : b = "true".data ∨ b = "false".data)
    (hB : Guard2 B) : Guard2 (b ++ B) := by
  rcases hb with hb | hb <;> subst hb
  · exact guard2_append_notS (by decide) hB
  · have g1 : Guard2 ('e' :: B) := guard2_cons_of_ne (by decide) hB
    have g2 : Guard2 ('s' :: 'e' :: B) := guard2_cons_s (by decide) g1
    have g3 : Guard2 ('l' :: 's' :: 'e' :: B) := guard2_cons_of_ne (by decide) g2
    have g4 : Guard2 ('a' :: 'l' :: 's' :: 'e' :: B) := guard2_cons_of_ne (by decide) g3
    exact guard2_cons_of_ne (by decide) g4

theorem guard1_bool {b B : List Char} (hb : b = "true".data ∨ b = "false".data)
    (hB : Guard1 B) : Guard1 (b ++ B) := by
  rcases hb with hb | hb <;> subst hb
  · exact guard1_append_notS (by decide) hB
  · have g1 : Guard1 ('e' :: B) := guard1_cons_of_ne (by decide) hB
    have g2 : Guard1 ('s' :: 'e' :: B) := guard1_cons_s (by decide) g1
    have g3 : Guard1 ('l' :: 's' :: 'e' :: B) := guard1_cons_of_ne (by decide) g2
    have g4 : Guard1 ('a' :: 'l' :: 's' :: 'e' :: B) := guard1_cons_of_ne (by decide) g3
    exact guard1_cons_of_ne (by decide) g4

theorem guard2_start {c : Char} {B : List Char} (hc : isWChar c = false)
    (hB : Guard2 (c :: B)) :
    Guard2 ('s' :: 'u' :: 'p' :: 'e' :: 'r' :: '(' :: c :: B) := by
  have g1 : Guard2 ('(' :: c :: B) := guard2_cons_of_ne (by decide) hB
  have g2 : Guard2 ('r' :: '(' :: c :: B) := guard2_cons_of_ne (by decide) g1
  have g3 : Guard2 ('e' :: 'r' :: '(' :: c :: B) := guard2_cons_of_ne (by decide) g2
  have g4 : Guard2 ('p' :: 'e' :: 'r' :: '(' :: c :: B) := guard2_cons_of_ne (by decide) g3
  have g5 : Guard2 ('u' :: 'p' :: 'e' :: 'r' :: '(' :: c :: B) := guard2_cons_of_ne (by decide) g4
  refine guard2_cons (fun t => ?_) g5
  simpa using matchTwo_none_nw (l := B ++ t) hc

theorem guard1_start {c : Char} {B : List Char} (hc : isWChar c = false)
    (hB : Guard1 (c :: B)) :
    Guard1 ('s' :: 'u' :: 'p' :: 'e' :: 'r' :: '(' :: c :: B) := by
  have g1 : Guard1 ('(' :: c :: B) := guard1_cons_of_ne (by decide) hB
  have g2 : Guard1 ('r' :: '(' :: c :: B) := guard1_cons_of_ne (by decide) g1
  have g3 : Guard1 ('e' :: 'r' :: '(' :: c :: B) := guard1_cons_of_ne (by decide) g2
  have g4 : Guard1 ('p' :: 'e' :: 'r' :: '(' :: c :: B) := guard1_cons_of_ne (by decide) g3
  have g5 : Guard1 ('u' :: 'p' :: 'e' :: 'r' :: '(' :: c :: B) := guard1_cons_of_ne (by decide) g4
  refine guard1_cons (fun t => ?_) g5
  simpa using matchOne_none_nw (l := B ++ t) hc

theorem guard2_replOne {w : List Char} (hw : ∀ c ∈ w, isWChar c) :
    Guard2 (replace_one_param w) := by
  have g1 : Guard2 [')', ';'] :=
    guard2_cons_of_ne (by decide) (guard2_cons_of_ne (by decide) guard2_nil)
  have g2 : Guard2 (w ++ [')', ';']) :=
    guard2_append_notS (fun c hc => wchar_ne_s (hw c hc)) g1
  have g3 : Guard2 ("etWeight(".data ++ (w ++ [')', ';'])) :=
    guard2_append_notS (by decide) g2
  have g4 : Guard2 ('s' :: 'e' :: ("tWeight(".data ++ (w ++ [')', ';']))) :=
    guard2_cons_s (by decide) g3
  have g5 : Guard2 (";\n        ".data ++
      ('s' :: 'e' :: ("tWeight(".data ++ (w ++ [')', ';'])))) :=
    guard2_append_notS (by decide) g4
  have g6 : Guard2 (')' :: (";\n        ".data ++
      ('s' :: 'e' :: ("tWeight(".data ++ (w ++ [')', ';']))))) :=
    guard2_cons_of_ne (by decide) g5
  exact guard2_start (by decide) g6

theorem guard1_replOne {w : List Char} (hw : ∀ c ∈ w, isWChar c) :
    Guard1 (replace_one_param w) := by
  have g1 : Guard1 [')', ';'] :=
    guard1_cons_of_ne (by decide) (guard1_cons_of_ne (by decide) guard1_nil)
  have g2 : Guard1 (w ++ [')', ';']) :=
    guard1_append_notS (fun c hc => wchar_ne_s (hw c hc)) g1
  have g3 : Guard1 ("etWeight(".data ++ (w ++ [')', ';'])) :=
    guard1_append_notS (by decide) g2
  have g4 : Guard1 ('s' :: 'e' :: ("tWeight(".data ++ (w ++ [')', ';']))) :=
    guard1_cons_s (by decide) g3
  have g5 : Guard1 (";\n        ".data ++
      ('s' :: 'e' :: ("tWeight(".data ++ (w ++ [')', ';'])))) :=
    guard1_append_notS (by decide) g4
  have g6 : Guard1 (')' :: (";\n        ".data ++
      ('s' :: 'e' :: ("tWeight(".data ++ (w ++ [')', ';']))))) :=
    guard1_cons_of_ne (by decide) g5
  exact guard1_start (by decide) g6

theorem guard2_replTwo {w b : List Char} (hw : ∀ c ∈ w, isWChar c)
    (hb : b = "true".data ∨ b = "false".data) :
    Guard2 (replace_two_params w b) := by
  have g1 : Guard2 [')', ';'] :=
    guard2_cons_of_ne (by decide) (guard2_cons_of_ne (by decide) guard2_nil)
  have g2 : Guard2 (b ++ [')', ';']) := guard2_bool hb g1
  have g3 : Guard2 ("etEnabled(".data ++ (b ++ [')', ';'])) :=
    guard2_append_notS (by decide) g2
  have g4 : Guard2 ('s' :: 'e' :: ("tEnabled(".data ++ (b ++ [')', ';']))) :=
    guard2_cons_s (by decide) g3
  have g5 : Guard2 (";\n        ".data ++
      ('s' :: 'e' :: ("tEnabled(".data ++ (b ++ [')', ';'])))) :=
    guard2_append_notS (by decide) g4
  have g6 : Guard2 (')' :: (";\n        ".data ++
      ('s' :: 'e' :: ("tEnabled(".data ++ (b ++ [')', ';']))))) :=
    guard2_cons_of_ne (by decide) g5
  have g7 : Guard2 (w ++ ')' :: (";\n        ".data ++
      ('s' :: 'e' :: ("tEnabled(".data ++ (b ++ [')', ';']))))) :=
    guard2_append_notS (fun c hc => wchar_ne_s (hw c hc)) g6
  have g8 : Guard2 ("etWeight(".data ++ (w ++ ')' :: (";\n        ".data ++
      ('s' :: 'e' :: ("tEnabled(".data ++ (b ++ [')', ';'])))))) :=
    guard2_append_notS (by decide) g7
  have g9 : Guard2 ('s' :: 'e' :: ("tWeight(".data ++ (w ++ ')' :: (";\n        ".data ++
      ('s' :: 'e' :: ("tEnabled(".data ++ (b ++ [')', ';']))))))) :=
    guard2_cons_s (by decide) g8
  have g10 : Guard2 (";\n        ".data ++
      ('s' :: 'e' :: ("tWeight(".data ++ (w ++ ')' :: (";\n        ".data ++
        ('s' :: 'e' :: ("tEnabled(".data ++ (b ++ [')', ';']))))))))  :=
    guard2_append_notS (by decide) g9
  have g11 : Guard2 (')' :: (";\n        ".data ++
      ('s' :: 'e' :: ("tWeight(".data ++ (w ++ ')' :: (";\n        ".data ++
        ('s' :: 'e' :: ("tEnabled(".data ++ (b ++ [')', ';']))))))))) :=
    guard2_cons_of_ne (by decide) g10
  have g12 := guard2_start (c := ')') (by decide) g11
  have hre : replace_two_params w b =
      "super();\n        setWeight(".data ++
        (w ++ (");\n        setEnabled(".data ++ (b ++ ");".data))) := by
    simp [replace_two_params]
  rw [hre]
  exact g12

theorem guard1_replTwo {w b : List Char} (hw : ∀ c ∈ w, isWChar c)
    (hb : b = "true".data ∨ b = "false".data) :
    Guard1 (replace_two_params w b) := by
  have g1 : Guard1 [')', ';'] :=
    guard1_cons_of_ne (by decide) (guard1_cons_of_ne (by decide) guard1_nil)
  have g2 : Guard1 (b ++ [')', ';']) := guard1_bool hb g1
  have g3 : Guard1 ("etEnabled(".data ++ (b ++ [')', ';'])) :=
    guard1_append_notS (by decide) g2
  have g4 : Guard1 ('s' :: 'e' :: ("tEnabled(".data ++ (b ++ [')', ';']))) :=
    guard1_cons_s (by decide) g3
  have g5 : Guard1 (";\n        ".data ++
      ('s' :: 'e' :: ("tEnabled(".data ++ (b ++ [')', ';'])))) :=
    guard1_append_notS (by decide) g4
  have g6 : Guard1 (')' :: (";\n        ".data ++
      ('s' :: 'e' :: ("tEnabled(".data ++ (b ++ [')', ';']))))) :=
    guard1_cons_of_ne (by decide) g5
  have g7 : Guard1 (w ++ ')' :: (";\n        ".data ++
      ('s' :: 'e' :: ("tEnabled(".data ++ (b ++ [')', ';']))))) :=
    guard1_append_notS (fun c hc => wchar_ne_s (hw c hc)) g6
  have g8 : Guard1 ("etWeight(".data ++ (w ++ ')' :: (";\n        ".data ++
      ('s' :: 'e' :: ("tEnabled(".data ++ (b ++ [')', ';'])))))) :=
    guard1_append_notS (by decide) g7
  have g9 : Guard1 ('s' :: 'e' :: ("tWeight(".data ++ (w ++ ')' :: (";\n        ".data ++
      ('s' :: 'e' :: ("tEnabled(".data ++ (b ++ [')', ';']))))))) :=
    guard1_cons_s (by decide) g8
  have g10 : Guard1 (";\n        ".data ++
      ('s' :: 'e' :: ("tWeight(".data ++ (w ++ ')' :: (";\n        ".data ++
        ('s' :: 'e' :: ("tEnabled(".data ++ (b ++ [')', ';']))))))))  :=
    guard1_append_notS (by decide) g9
  have g11 : Guard1 (')' :: (";\n        ".data ++
      ('s' :: 'e' :: ("tWeight(".data ++ (w ++ ')' :: (";\n        ".data ++
        ('s' :: 'e' :: ("tEnabled(".data ++ (b ++ [')', ';']))))))))) :=
    guard1_cons_of_ne (by decide) g10
  have g12 := guard1_start (c := ')') (by decide) g11
  have hre : replace_two_params w b =
      "super();\n        setWeight(".data ++
        (w ++ (");\n        setEnabled(".data ++ (b ++ ");".data))) := by
    simp [replace_two_params]
  rw [hre]
  exact g12

theorem guard2_shapeOne {w : List Char} (hok : ShapeOneOk w) : Guard2 (shapeOne w) := by
  obtain ⟨hne, hww⟩ := hok
  have g1 : Guard2 [')', ';'] :=
    guard2_cons_of_ne (by decide) (guard2_cons_of_ne (by decide) guard2_nil)
  have g2 : Guard2 (w ++ [')', ';']) :=
    guard2_append_notS (fun c hc => wchar_ne_s (hww c hc)) g1
  have g3 : Guard2 ('(' :: (w ++ [')', ';'])) := guard2_cons_of_ne (by decide) g2
  have g4 : Guard2 ('r' :: '(' :: (w ++ [')', ';'])) := guard2_cons_of_ne (by decide) g3
  have g5 : Guard2 ('e' :: 'r' :: '(' :: (w ++ [')', ';'])) :=
    guard2_cons_of_ne (by decide) g4
  have g6 : Guard2 ('p' :: 'e' :: 'r' :: '(' :: (w ++ [')', ';'])) :=
    guard2_cons_of_ne (by decide) g5
  have g7 : Guard2 ('u' :: 'p' :: 'e' :: 'r' :: '(' :: (w ++ [')', ';'])) :=
    guard2_cons_of_ne (by decide) g6
  have g8 : Guard2 ('s' :: 'u' :: 'p' :: 'e' :: 'r' :: '(' :: (w ++ [')', ';'])) := by
    refine guard2_cons (fun t => ?_) g7
    simpa using matchTwo_none_after_w (l := ';' :: t) hww
  rw [shapeOne_cons]
  exact g8

theorem guard1_shapeTwo {w ws1 b ws2 : List Char} (hok : ShapeTwoOk w ws1 b ws2) :
    Guard1 (shapeTwo w ws1 b ws2) := by
  obtain ⟨hne, hww, hws1, hbval, hws2⟩ := hok
  have g1 : Guard1 [')', ';'] :=
    guard1_cons_of_ne (by decide) (guard1_cons_of_ne (by decide) guard1_nil)
  have g2 : Guard1 (ws2 ++ [')', ';']) :=
    guard1_append_notS (fun c hc => pyspace_ne_s (hws2 c hc)) g1
  have g3 : Guard1 (b ++ (ws2 ++ [')', ';'])) := guard1_bool hbval g2
  have g4 : Guard1 (ws1 ++ (b ++ (ws2 ++ [')', ';']))) :=
    guard1_append_notS (fun c hc => pyspace_ne_s (hws1 c hc)) g3
  have g5 : Guard1 (',' :: (ws1 ++ (b ++ (ws2 ++ [')', ';'])))) :=
    guard1_cons_of_ne (by decide) g4
  have g6 : Guard1 (w ++ ',' :: (ws1 ++ (b ++ (ws2 ++ [')', ';'])))) :=
    guard1_append_notS (fun c hc => wchar_ne_s (hww c hc)) g5
  have g7 : Guard1 ('(' :: (w ++ ',' :: (ws1 ++ (b ++ (ws2 ++ [')', ';']))))) :=
    guard1_cons_of_ne (by decide) g6
  have g8 : Guard1 ('r' :: '(' :: (w ++ ',' :: (ws1 ++ (b ++ (ws2 ++ [')', ';']))))) :=
    guard1_cons_of_ne (by decide) g7
  have g9 : Guard1 ('e' :: 'r' :: '(' ::
      (w ++ ',' :: (ws1 ++ (b ++ (ws2 ++ [')', ';']))))) :=
    guard1_cons_of_ne (by decide) g8
  have g10 : Guard1 ('p' :: 'e' :: 'r' :: '(' ::
      (w ++ ',' :: (ws1 ++ (b ++ (ws2 ++ [')', ';']))))) :=
    guard1_cons_of_ne (by decide) g9
  have g11 : Guard1 ('u' :: 'p' :: 'e' :: 'r' :: '(' ::
      (w ++ ',' :: (ws1 ++ (b ++ (ws2 ++ [')', ';']))))) :=
    guard1_cons_of_ne (by decide) g10
  have g12 : Guard1 ('s' :: 'u' :: 'p' :: 'e' :: 'r' :: '(' ::
      (w ++ ',' :: (ws1 ++ (b ++ (ws2 ++ [')', ';']))))) := by
    refine guard1_cons (fun t => ?_) g11
    simpa using matchOne_none_after_comma
      (l := ws1 ++ (b ++ (ws2 ++ [')', ';'])) ++ t) hww
  rw [shapeTwo_cons]
  exact g12

theorem guard2_of_cons {c : Char} {B : List Char} (h : Guard2 (c :: B)) : Guard2 B :=
  fun e t he hne => h e t (he.trans (List.suffix_cons c B)) hne

theorem guard1_of_cons {c : Char} {B : List Char} (h : Guard1 (c :: B)) : Guard1 B :=
  fun e t he hne => h e t (he.trans (List.suffix_cons c B)) hne

theorem subTwo_pass {B : List Char} (hB : Guard2 B) (t : List Char) :
    subTwo (B ++ t) = B ++ subTwo t := by
  induction B with
  | nil => simp
  | cons c B ih =>
    have hm : matchTwo (c :: (B ++ t)) = none := by
      simpa using hB (c :: B) t List.suffix_rfl (by simp)
    rw [List.cons_append, subTwo_cons_none hm, ih (guard2_of_cons hB), List.cons_append]

theorem subOne_pass {B : List Char} (hB : Guard1 B) (t : List Char) :
    subOne (B ++ t) = B ++ subOne t := by
  induction B with
  | nil => simp
  | cons c B ih =>
    have hm : matchOne (c :: (B ++ t)) = none := by
      simpa using hB (c :: B) t List.suffix_rfl (by simp)
    rw [List.cons_append, subOne_cons_none hm, ih (guard1_of_cons hB), List.cons_append]

end FixSuper

namespace FixSuper

theorem subTwo_struct (s : List Char) :
    subTwo s = s ∨ ∃ p q z, s = p ++ q ∧ subTwo s = p ++ 's' :: 'u' :: z := by
  induction s with
  | nil => left; exact subTwo_nil
  | cons c cs ih =>
    cases hm : matchTwo (c :: cs) with
    | some x =>
      obtain ⟨w, b, r⟩ := x
      right
      refine ⟨[], c :: cs, "per();\n        setWeight(".data ++ w ++
        ");\n        setEnabled(".data ++ b ++ ");".data ++ subTwo r, rfl, ?_⟩
      rw [subTwo_cons_some hm]
      rfl
    | none =>
      rw [subTwo_cons_none hm]
      rcases ih with h | ⟨p, q, z, hpq, hsub⟩
      · left; rw [h]
      · right
        exact ⟨c :: p, q, z, by rw [List.cons_append, hpq],
          by rw [hsub, List.cons_append]⟩

theorem subOne_struct (s : List Char) :
    subOne s = s ∨ ∃ p q z, s = p ++ q ∧ subOne s = p ++ 's' :: 'u' :: z := by
  induction s with
  | nil => left; exact subOne_nil
  | cons c cs ih =>
    cases hm : matchOne (c :: cs) with
    | some x =>
      obtain ⟨w, r⟩ := x
      right
      refine ⟨[], c :: cs, "per();\n        setWeight(".data ++ w ++
        ");".data ++ subOne r, rfl, ?_⟩
      rw [subOne_cons_some hm]
      rfl
    | none =>
      rw [subOne_cons_none hm]
      rcases ih with h | ⟨p, q, z, hpq, hsub⟩
      · left; rw [h]
      · right
        exact ⟨c :: p, q, z, by rw [List.cons_append, hpq],
          by rw [hsub, List.cons_append]⟩

theorem cross_two {y z w b r : List Char} (hy : y ≠ [])
    (h : matchTwo (y ++ 's' :: 'u' :: z) = some (w, b, r)) :
    ∃ r0, r = r0 ++ 's' :: 'u' :: z ∧ ∀ t, matchTwo (y ++ t) = some (w, b, r0 ++ t) := by
  obtain ⟨ws1, ws2, hv, hok⟩ := matchTwo_some_iff.mp h
  rcases List.append_eq_append_iff.mp hv with ⟨e, he1, he2⟩ | ⟨e, he1, he2⟩
  · -- the shape extends at least as far as y does
    cases e with
    | nil =>
      have hsy : shapeTwo w ws1 b ws2 = y := by simpa using he1
      have hr : r = 's' :: 'u' :: z := by simpa using he2.symm
      refine ⟨[], by simpa using hr, ?_⟩
      intro t
      rw [← hsy]
      simpa using matchTwo_some_iff.mpr ⟨ws1, ws2, rfl, hok⟩
    | cons g e' =>
      injection he2 with hg hb2
      subst hg
      cases e' with
      | nil => exact (shapeTwo_not_end_s he1).elim
      | cons g2 e3 =>
        injection hb2 with hg2 hb3
        subst hg2
        exact (shapeTwo_no_inner_su hok he1 hy).elim
  · -- the shape lies inside y
    refine ⟨e, he2, ?_⟩
    intro t
    rw [he1, List.append_assoc]
    exact matchTwo_some_iff.mpr ⟨ws1, ws2, rfl, hok⟩

theorem cross_one {y z w r : List Char} (hy : y ≠ [])
    (h : matchOne (y ++ 's' :: 'u' :: z) = some (w, r)) :
    ∃ r0, r = r0 ++ 's' :: 'u' :: z ∧ ∀ t, matchOne (y ++ t) = some (w, r0 ++ t) := by
  obtain ⟨hv, hok⟩ := matchOne_some_iff.mp h
  rcases List.append_eq_append_iff.mp hv with ⟨e, he1, he2⟩ | ⟨e, he1, he2⟩
  · cases e with
    | nil =>
      have hsy : shapeOne w = y := by simpa using he1
      have hr : r = 's' :: 'u' :: z := by simpa using he2.symm
      refine ⟨[], by simpa using hr, ?_⟩
      intro t
      rw [← hsy]
      simpa using matchOne_some_iff.mpr ⟨rfl, hok⟩
    | cons g e' =>
      injection he2 with hg hb2
      subst hg
      cases e' with
      | nil => exact (shapeOne_not_end_s he1).elim
      | cons g2 e3 =>
        injection hb2 with hg2 hb3
        subst hg2
        exact (shapeOne_no_inner_su hok he1 hy).elim
  · refine ⟨e, he2, ?_⟩
    intro t
    rw [he1, List.append_assoc]
    exact matchOne_some_iff.mpr ⟨rfl, hok⟩

theorem matchTwo_none_cons_of_struct {c : Char} {cs X : List Char}
    (hm : matchTwo (c :: cs) = none)
    (hstruct : X = cs ∨ ∃ p q z, cs = p ++ q ∧ X = p ++ 's' :: 'u' :: z) :
    matchTwo (c :: X) = none := by
  rcases hstruct with rfl | ⟨p, q, z, hpq, rfl⟩
  · exact hm
  · cases hmx : matchTwo (c :: (p ++ 's' :: 'u' :: z)) with
    | none => rfl
    | some x =>
      obtain ⟨w, b, r⟩ := x
      have hx : matchTwo ((c :: p) ++ 's' :: 'u' :: z) = some (w, b, r) := by
        simpa using hmx
      obtain ⟨r0, hr0, hall⟩ := cross_two (by simp) hx
      have hcontra : matchTwo (c :: cs) = some (w, b, r0 ++ q) := by
        rw [hpq]
        simpa using hall q
      rw [hcontra] at hm
      cases hm

theorem matchOne_none_cons_of_struct {c : Char} {cs X : List Char}
    (hm : matchOne (c :: cs) = none)
    (hstruct : X = cs ∨ ∃ p q z, cs = p ++ q ∧ X = p ++ 's' :: 'u' :: z) :
    matchOne (c :: X) = none := by
  rcases hstruct with rfl | ⟨p, q, z, hpq, rfl⟩
  · exact hm
  · cases hmx : matchOne (c :: (p ++ 's' :: 'u' :: z)) with
    | none => rfl
    | some x =>
      obtain ⟨w, r⟩ := x
      have hx : matchOne ((c :: p) ++ 's' :: 'u' :: z) = some (w, r) := by
        simpa using hmx
      obtain ⟨r0, hr0, hall⟩ := cross_one (by simp) hx
      have hcontra : matchOne (c :: cs) = some (w, r0 ++ q) := by
        rw [hpq]
        simpa using hall q
      rw [hcontra] at hm
      cases hm

theorem noMatchTwo_nil : NoMatchTwo [] := by
  intro u v huv
  obtain ⟨hu, hv⟩ := List.append_eq_nil.mp huv.symm
  rw [hv]
  exact matchTwo_nil

theorem noMatchOne_nil : NoMatchOne [] := by
  intro u v huv
  obtain ⟨hu, hv⟩ := List.append_eq_nil.mp huv.symm
  rw [hv]
  exact matchOne_nil

theorem noMatchTwo_subTwo_aux : ∀ n s, s.length ≤ n → NoMatchTwo (subTwo s) := by
  intro n
  induction n with
  | zero =>
    intro s hs
    cases s with
    | nil => rw [subTwo_nil]; exact noMatchTwo_nil
    | cons c cs => simp at hs
  | succ n ih =>
    intro s hs
    cases s with
    | nil => rw [subTwo_nil]; exact noMatchTwo_nil
    | cons c cs =>
      cases hm : matchTwo (c :: cs) with
      | none =>
        rw [subTwo_cons_none hm]
        intro u v huv
        cases u with
        | nil =>
          simp only [List.nil_append] at huv
          subst huv
          exact matchTwo_none_cons_of_struct hm (subTwo_struct cs)
        | cons d u' =>
          injection huv with h1 h2
          have hcs : cs.length ≤ n := by
            simp only [List.length_cons] at hs
            omega
          exact ih cs hcs u' v h2
      | some x =>
        obtain ⟨w, b, r⟩ := x
        rw [subTwo_cons_some hm]
        obtain ⟨ws1, ws2, hv, hok⟩ := matchTwo_some_iff.mp hm
        obtain ⟨hne, hww, hws1, hbval, hws2⟩ := hok
        have hr : r.length ≤ n := by
          have hlt := matchTwo_length_lt hm
          simp only [List.length_cons] at hlt hs
          omega
        intro u v huv
        rcases List.append_eq_append_iff.mp huv.symm with ⟨e, he1, he2⟩ | ⟨e, he1, he2⟩
        · cases e with
          | nil =>
            rw [he2]
            simpa using ih r hr [] (subTwo r) rfl
          | cons g e' =>
            rw [he2]
            exact guard2_replTwo hww hbval (g :: e') (subTwo r) ⟨u, he1.symm⟩ (by simp)
        · exact ih r hr e v he2

theorem noMatchTwo_subTwo (s : List Char) : NoMatchTwo (subTwo s) :=
  noMatchTwo_subTwo_aux s.length s le_rfl

theorem subOne_preserves_aux : ∀ n s, s.length ≤ n → NoMatchTwo s →
    NoMatchTwo (subOne s) ∧ NoMatchOne (subOne s) := by
  intro n
  induction n with
  | zero =>
    intro s hs h2
    cases s with
    | nil => rw [subOne_nil]; exact ⟨noMatchTwo_nil, noMatchOne_nil⟩
    | cons c cs => simp at hs
  | succ n ih =>
    intro s hs h2
    cases s with
    | nil => rw [subOne_nil]; exact ⟨noMatchTwo_nil, noMatchOne_nil⟩
    | cons c cs =>
      cases hm : matchOne (c :: cs) with
      | none =>
        rw [subOne_cons_none hm]
        have hcs : cs.length ≤ n := by
          simp only [List.length_cons] at hs
          omega
        obtain ⟨ih2, ih1⟩ := ih cs hcs (noMatchTwo_tail h2)
        constructor
        · intro u v huv
          cases u with
          | nil =>
            simp only [List.nil_append] at huv
            subst huv
            exact matchTwo_none_cons_of_struct (h2 [] (c :: cs) rfl) (subOne_struct cs)
          | cons d u' =>
            injection huv with h1' h2'
            exact ih2 u' v h2'
        · intro u v huv
          cases u with
          | nil =>
            simp only [List.nil_append] at huv
            subst huv
            exact matchOne_none_cons_of_struct hm (subOne_struct cs)
          | cons d u' =>
            injection huv with h1' h2'
            exact ih1 u' v h2'
      | some x =>
        obtain ⟨w, r⟩ := x
        rw [subOne_cons_some hm]
        obtain ⟨hv, hok⟩ := matchOne_some_iff.mp hm
        have hww := hok.2
        have h2r : NoMatchTwo r := by
          intro u v huv
          exact h2 (shapeOne w ++ u) v (by rw [hv, huv, List.append_assoc])
        have hr : r.length ≤ n := by
          have hlt := matchOne_length_lt hm
          simp only [List.length_cons] at hlt hs
          omega
        obtain ⟨ih2, ih1⟩ := ih r hr h2r
        constructor
        · intro u v huv
          rcases List.append_eq_append_iff.mp huv.symm with ⟨e, he1, he2⟩ | ⟨e, he1, he2⟩
          · cases e with
            | nil =>
              rw [he2]
              simpa using ih2 [] (subOne r) rfl
            | cons g e' =>
              rw [he2]
              exact guard2_replOne hww (g :: e') (subOne r) ⟨u, he1.symm⟩ (by simp)
          · exact ih2 e v he2
        · intro u v huv
          rcases List.append_eq_append_iff.mp huv.symm with ⟨e, he1, he2⟩ | ⟨e, he1, he2⟩
          · cases e with
            | nil =>
              rw [he2]
              simpa using ih1 [] (subOne r) rfl
            | cons g e' =>
              rw [he2]
              exact guard1_replOne hww (g :: e') (subOne r) ⟨u, he1.symm⟩ (by simp)
          · exact ih1 e v he2

theorem transform_noMatch (s : List Char) :
    NoMatchTwo (transform s) ∧ NoMatchOne (transform s) :=
  subOne_preserves_aux (subTwo s).length (subTwo s) le_rfl (noMatchTwo_subTwo s)

theorem transform_idem (s : List Char) : transform (transform s) = transform s := by
  obtain ⟨h2, h1⟩ := transform_noMatch s
  show subOne (subTwo (transform s)) = transform s
  rw [subTwo_id h2, subOne_id h1]

end FixSuper

namespace FixSuper

theorem subTwo_match {s w b r : List Char} (h : matchTwo s = some (w, b, r)) :
    subTwo s = replace_two_params w b ++ subTwo r := by
  cases s with
  | nil => rw [matchTwo_nil] at h; cases h
  | cons c cs => exact subTwo_cons_some h

theorem subOne_match {s w r : List Char} (h : matchOne s = some (w, r)) :
    subOne s = replace_one_param w ++ subOne r := by
  cases s with
  | nil => rw [matchOne_nil] at h; cases h
  | cons c cs => exact subOne_cons_some h

theorem comm_aux : ∀ n s, s.length ≤ n → subTwo (subOne s) = subOne (subTwo s) := by
  intro n
  induction n with
  | zero =>
    intro s hs
    cases s with
    | nil => rw [subOne_nil, subTwo_nil, subOne_nil]
    | cons c cs => simp at hs
  | succ n ih =>
    intro s hs
    cases s with
    | nil => rw [subOne_nil, subTwo_nil, subOne_nil]
    | cons c cs =>
      cases hm2 : matchTwo (c :: cs) with
      | some x =>
        obtain ⟨w, b, r⟩ := x
        obtain ⟨ws1, ws2, hv, hok⟩ := matchTwo_some_iff.mp hm2
        have hr : r.length ≤ n := by
          have hlt := matchTwo_length_lt hm2
          simp only [List.length_cons] at hlt hs
          omega
        have hRHS : subOne (subTwo (c :: cs)) =
            replace_two_params w b ++ subOne (subTwo r) := by
          rw [subTwo_cons_some hm2,
            subOne_pass (guard1_replTwo hok.2.1 hok.2.2.2.1)]
        have hL1 : subOne (c :: cs) = shapeTwo w ws1 b ws2 ++ subOne r := by
          rw [hv, subOne_pass (guard1_shapeTwo hok)]
        have hL2 : subTwo (shapeTwo w ws1 b ws2 ++ subOne r) =
            replace_two_params w b ++ subTwo (subOne r) :=
          subTwo_match (matchTwo_some_iff.mpr ⟨ws1, ws2, rfl, hok⟩)
        rw [hL1, hL2, hRHS, ih r hr]
      | none =>
        cases hm1 : matchOne (c :: cs) with
        | some x =>
          obtain ⟨w, r⟩ := x
          obtain ⟨hv, hok⟩ := matchOne_some_iff.mp hm1
          have hr : r.length ≤ n := by
            have hlt := matchOne_length_lt hm1
            simp only [List.length_cons] at hlt hs
            omega
          have hRHS : subTwo (subOne (c :: cs)) =
              replace_one_param w ++ subTwo (subOne r) := by
            rw [subOne_cons_some hm1, subTwo_pass (guard2_replOne hok.2)]
          have hL1 : subTwo (c :: cs) = shapeOne w ++ subTwo r := by
            rw [hv, subTwo_pass (guard2_shapeOne hok)]
          have hL2 : subOne (shapeOne w ++ subTwo r) =
              replace_one_param w ++ subOne (subTwo r) :=
            subOne_match (matchOne_some_iff.mpr ⟨rfl, hok⟩)
          rw [hRHS, hL1, hL2, ih r hr]
        | none =>
          have hcs : cs.length ≤ n := by
            simp only [List.length_cons] at hs
            omega
          rw [subTwo_cons_none hm2, subOne_cons_none hm1]
          have hma : matchTwo (c :: subOne cs) = none :=
            matchTwo_none_cons_of_struct hm2 (subOne_struct cs)
          have hmb : matchOne (c :: subTwo cs) = none :=
            matchOne_none_cons_of_struct hm1 (subTwo_struct cs)
          rw [subTwo_cons_none hma, subOne_cons_none hmb, ih cs hcs]

theorem subTwo_subOne_comm (s : List Char) : subTwo (subOne s) = subOne (subTwo s) :=
  comm_aux s.length s le_rfl

end FixSuper

namespace FixSuper

theorem subTwo_scan : ∀ n u z0 RES v, u.length ≤ n →
    (∀ v', subTwo (('s' :: 'u' :: z0) ++ v') = RES ++ subTwo v') →
    ∃ u', subTwo (u ++ ('s' :: 'u' :: z0) ++ v) = u' ++ RES ++ subTwo v := by
  intro n
  induction n with
  | zero =>
    intro u z0 RES v hu hhead
    cases u with
    | nil => exact ⟨[], by simpa using hhead v⟩
    | cons c u0 => simp at hu
  | succ n ih =>
    intro u z0 RES v hu hhead
    cases u with
    | nil => exact ⟨[], by simpa using hhead v⟩
    | cons c u0 =>
      cases hm : matchTwo ((c :: u0) ++ ('s' :: 'u' :: z0) ++ v) with
      | none =>
        have hm2 : matchTwo (c :: (u0 ++ ('s' :: 'u' :: z0) ++ v)) = none := by
          simpa using hm
        have hu0 : u0.length ≤ n := by
          simp only [List.length_cons] at hu
          omega
        obtain ⟨u2, hu2⟩ := ih u0 z0 RES v hu0 hhead
        refine ⟨c :: u2, ?_⟩
        have he : (c :: u0) ++ ('s' :: 'u' :: z0) ++ v =
            c :: (u0 ++ ('s' :: 'u' :: z0) ++ v) := by simp
        rw [he, subTwo_cons_none hm2, hu2]
        simp
      | some x =>
        obtain ⟨w2, b2, r⟩ := x
        have hm2 : matchTwo ((c :: u0) ++ 's' :: 'u' :: (z0 ++ v)) =
            some (w2, b2, r) := by
          simpa [List.append_assoc] using hm
        obtain ⟨r0, hr0, hall⟩ := cross_two (by simp) hm2
        have hr0len : r0.length ≤ n := by
          have h0 := matchTwo_length_lt (hall [])
          simp only [List.append_nil, List.length_cons] at h0
          simp only [List.length_cons] at hu
          omega
        obtain ⟨u2, hu2⟩ := ih r0 z0 RES v hr0len hhead
        refine ⟨replace_two_params w2 b2 ++ u2, ?_⟩
        rw [subTwo_match hm, hr0]
        have hz : r0 ++ 's' :: 'u' :: (z0 ++ v) = r0 ++ ('s' :: 'u' :: z0) ++ v := by
          simp
        rw [hz, hu2]
        simp

theorem subOne_scan : ∀ n u z0 RES v, u.length ≤ n →
    (∀ v', subOne (('s' :: 'u' :: z0) ++ v') = RES ++ subOne v') →
    ∃ u', subOne (u ++ ('s' :: 'u' :: z0) ++ v) = u' ++ RES ++ subOne v := by
  intro n
  induction n with
  | zero =>
    intro u z0 RES v hu hhead
    cases u with
    | nil => exact ⟨[], by simpa using hhead v⟩
    | cons c u0 => simp at hu
  | succ n ih =>
    intro u z0 RES v hu hhead
    cases u with
    | nil => exact ⟨[], by simpa using hhead v⟩
    | cons c u0 =>
      cases hm : matchOne ((c :: u0) ++ ('s' :: 'u' :: z0) ++ v) with
      | none =>
        have hm2 : matchOne (c :: (u0 ++ ('s' :: 'u' :: z0) ++ v)) = none := by
          simpa using hm
        have hu0 : u0.length ≤ n := by
          simp only [List.length_cons] at hu
          omega
        obtain ⟨u2, hu2⟩ := ih u0 z0 RES v hu0 hhead
        refine ⟨c :: u2, ?_⟩
        have he : (c :: u0) ++ ('s' :: 'u' :: z0) ++ v =
            c :: (u0 ++ ('s' :: 'u' :: z0) ++ v) := by simp
        rw [he, subOne_cons_none hm2, hu2]
        simp
      | some x =>
        obtain ⟨w2, r⟩ := x
        have hm2 : matchOne ((c :: u0) ++ 's' :: 'u' :: (z0 ++ v)) =
            some (w2, r) := by
          simpa [List.append_assoc] using hm
        obtain ⟨r0, hr0, hall⟩ := cross_one (by simp) hm2
        have hr0len : r0.length ≤ n := by
          have h0 := matchOne_length_lt (hall [])
          simp only [List.append_nil, List.length_cons] at h0
          simp only [List.length_cons] at hu
          omega
        obtain ⟨u2, hu2⟩ := ih r0 z0 RES v hr0len hhead
        refine ⟨replace_one_param w2 ++ u2, ?_⟩
        rw [subOne_match hm, hr0]
        have hz : r0 ++ 's' :: 'u' :: (z0 ++ v) = r0 ++ ('s' :: 'u' :: z0) ++ v := by
          simp
        rw [hz, hu2]
        simp

end FixSuper

namespace FixSuper

/-- A file-system snapshot: an association list from path to text content.
`none` on lookup models `os.path.exists` returning `False`. -/
def lookupFS : List (List Char × List Char) → List Char → Option (List Char)
  | [], _ => none
  | (q, c) :: fs, p => if q = p then some c else lookupFS fs p

/-- Writing a file back in place (the script only writes to paths that exist). -/
def writeFS : List (List Char × List Char) → List Char → List Char →
    List (List Char × List Char)
  | [], _, _ => []
  | (q, c) :: fs, p, c2 => if q = p then (q, c2) :: fs else (q, c) :: writeFS fs p c2

/-- Observable outcome of one run of the script's loop: the final file system,
the arguments of the `print` calls in order, the performed writes in order,
and the final value of `fixed_count`. -/
structure RunResult where
  fs : List (List Char × List Char)
  prints : List (List Char)
  writes : List (List Char × List Char)
  count : Nat

/-- The per-file loop of `fix_super_calls.py`: existence check (skip when the
path is missing), whole-text transformation, conditional write-back with the
counter increment, and one outcome line per path. -/
def processFiles : List (List Char × List Char) → List (List Char) → RunResult
  | fs, [] => ⟨fs, [], [], 0⟩
  | fs, p :: ps =>
    match lookupFS fs p with
    | none =>
      ⟨(processFiles fs ps).fs,
        ("SKIP: ".data ++ p ++ " not found".data) :: (processFiles fs ps).prints,
        (processFiles fs ps).writes, (processFiles fs ps).count⟩
    | some content =>
      if transform content ≠ content then
        ⟨(processFiles (writeFS fs p (transform content)) ps).fs,
          ("FIXED: ".data ++ p) ::
            (processFiles (writeFS fs p (transform content)) ps).prints,
          (p, transform content) ::
            (processFiles (writeFS fs p (transform content)) ps).writes,
          (processFiles (writeFS fs p (transform content)) ps).count + 1⟩
      else
        ⟨(processFiles fs ps).fs,
          ("NO CHANGE: ".data ++ p) :: (processFiles fs ps).prints,
          (processFiles fs ps).writes, (processFiles fs ps).count⟩

/-- Console text produced by a list of `print` calls: each call appends its
argument followed by a newline. -/
def emit (lines : List (List Char)) : List Char :=
  lines.foldr (fun l acc => l ++ '\n' :: acc) []

/-- Decimal rendering of the final counter. -/
def natChars (n : Nat) : List Char := (Nat.repr n).data

/-- The whole console text of a run: the per-file outcome prints followed by
the final `print(f'\nTotal files fixed: {fixed_count}')`. -/
def console (fs : List (List Char × List Char)) (paths : List (List Char)) : List Char :=
  emit ((processFiles fs paths).prints ++
    ['\n' :: ("Total files fixed: ".data ++ natChars (processFiles fs paths).count)])

theorem processFiles_skip {fs : List (List Char × List Char)} {p : List Char}
    {ps : List (List Char)} (h : lookupFS fs p = none) :
    processFiles fs (p :: ps) =
      ⟨(processFiles fs ps).fs,
        ("SKIP: ".data ++ p ++ " not found".data) :: (processFiles fs ps).prints,
        (processFiles fs ps).writes, (processFiles fs ps).count⟩ := by
  simp only [processFiles, h]

theorem processFiles_fixed {fs : List (List Char × List Char)} {p c : List Char}
    {ps : List (List Char)} (h : lookupFS fs p = some c) (hch : transform c ≠ c) :
    processFiles fs (p :: ps) =
      ⟨(processFiles (writeFS fs p (transform c)) ps).fs,
        ("FIXED: ".data ++ p) ::
          (processFiles (writeFS fs p (transform c)) ps).prints,
        (p, transform c) ::
          (processFiles (writeFS fs p (transform c)) ps).writes,
        (processFiles (writeFS fs p (transform c)) ps).count + 1⟩ := by
  simp only [processFiles, h, if_pos hch]

theorem processFiles_nochange {fs : List (List Char × List Char)} {p c : List Char}
    {ps : List (List Char)} (h : lookupFS fs p = some c) (hch : transform c = c) :
    processFiles fs (p :: ps) =
      ⟨(processFiles fs ps).fs,
        ("NO CHANGE: ".data ++ p) :: (processFiles fs ps).prints,
        (processFiles fs ps).writes, (processFiles fs ps).count⟩ := by
  have hn : ¬ (transform c ≠ c) := by simp [hch]
  simp only [processFiles, h, if_neg hn]

theorem lookupFS_writeFS_other {fs : List (List Char × List Char)} {p q c : List Char}
    (h : lookupFS fs p = none) : lookupFS (writeFS fs q c) p = none := by
  induction fs with
  | nil => rfl
  | cons qc fs ih =>
    obtain ⟨q', c'⟩ := qc
    simp only [lookupFS] at h
    by_cases hqp : q' = p
    · rw [if_pos hqp] at h; cases h
    · rw [if_neg hqp] at h
      simp only [writeFS]
      by_cases hqq : q' = q
      · rw [if_pos hqq]
        simp only [lookupFS, if_neg hqp]
        exact h
      · rw [if_neg hqq]
        simp only [lookupFS, if_neg hqp]
        exact ih h

theorem lookupFS_writeFS_ne {fs : List (List Char × List Char)} {p q c : List Char}
    (hne : q ≠ p) : lookupFS (writeFS fs q c) p = lookupFS fs p := by
  induction fs with
  | nil => rfl
  | cons qc fs ih =>
    obtain ⟨q', c'⟩ := qc
    simp only [writeFS]
    by_cases hqq : q' = q
    · rw [if_pos hqq]
      have hqp : ¬ q' = p := by rw [hqq]; exact hne
      simp only [lookupFS, if_neg hqp]
    · rw [if_neg hqq]
      simp only [lookupFS]
      by_cases hqp : q' = p
      · rw [if_pos hqp, if_pos hqp]
      · rw [if_neg hqp, if_neg hqp]
        exact ih

theorem processFiles_prints_length (fs : List (List Char × List Char))
    (paths : List (List Char)) :
    (processFiles fs paths).prints.length = paths.length := by
  induction paths generalizing fs with
  | nil => rfl
  | cons p ps ih =>
    cases h : lookupFS fs p with
    | none => rw [processFiles_skip h]; simp [ih]
    | some c =>
      by_cases hch : transform c = c
      · rw [processFiles_nochange h hch]; simp [ih]
      · rw [processFiles_fixed h hch]; simp [ih]

theorem processFiles_count_writes (fs : List (List Char × List Char))
    (paths : List (List Char)) :
    (processFiles fs paths).count = (processFiles fs paths).writes.length := by
  induction paths generalizing fs with
  | nil => rfl
  | cons p ps ih =>
    cases h : lookupFS fs p with
    | none => rw [processFiles_skip h]; simp [ih]
    | some c =>
      by_cases hch : transform c = c
      · rw [processFiles_nochange h hch]; simp [ih]
      · rw [processFiles_fixed h hch]; simp [ih]

theorem processFiles_outcome (fs : List (List Char × List Char))
    (paths : List (List Char)) (i : Nat) (p : List Char) (hp : paths[i]? = some p) :
    (processFiles fs paths).prints[i]? =
        some ("SKIP: ".data ++ p ++ " not found".data) ∨
      (processFiles fs paths).prints[i]? = some ("FIXED: ".data ++ p) ∨
      (processFiles fs paths).prints[i]? = some ("NO CHANGE: ".data ++ p) := by
  induction paths generalizing fs i with
  | nil => cases hp
  | cons q ps ih =>
    cases i with
    | zero =>
      simp only [List.getElem?_cons_zero, Option.some.injEq] at hp
      subst hp
      cases h : lookupFS fs q with
      | none => rw [processFiles_skip h]; left; simp
      | some c =>
        by_cases hch : transform c = c
        · rw [processFiles_nochange h hch]; right; right; simp
        · rw [processFiles_fixed h hch]; right; left; simp
    | succ i =>
      simp only [List.getElem?_cons_succ] at hp
      cases h : lookupFS fs q with
      | none =>
        rw [processFiles_skip h]
        simpa using ih fs i hp
      | some c =>
        by_cases hch : transform c = c
        · rw [processFiles_nochange h hch]
          simpa using ih fs i hp
        · rw [processFiles_fixed h hch]
          simpa using ih (writeFS fs q (transform c)) i hp

theorem processFiles_no_write_missing {fs : List (List Char × List Char)}
    {paths : List (List Char)} {p : List Char} (h : lookupFS fs p = none) :
    ∀ x ∈ (processFiles fs paths).writes, x.1 ≠ p := by
  induction paths generalizing fs with
  | nil => intro x hx; cases hx
  | cons q ps ih =>
    intro x hx
    cases hq : lookupFS fs q with
    | none =>
      rw [processFiles_skip hq] at hx
      exact ih h x hx
    | some c =>
      by_cases hch : transform c = c
      · rw [processFiles_nochange hq hch] at hx
        exact ih h x hx
      · rw [processFiles_fixed hq hch] at hx
        rcases List.mem_cons.mp hx with rfl | hx'
        · intro hqp
          simp only [] at hqp
          subst hqp
          rw [h] at hq
          cases hq
        · exact ih (lookupFS_writeFS_other h) x hx'

theorem processFiles_skip_mem {fs : List (List Char × List Char)}
    {paths : List (List Char)} {p : List Char} (hmem : p ∈ paths)
    (h : lookupFS fs p = none) :
    ("SKIP: ".data ++ p ++ " not found".data) ∈ (processFiles fs paths).prints := by
  induction paths generalizing fs with
  | nil => cases hmem
  | cons q ps ih =>
    rcases List.mem_cons.mp hmem with rfl | hmem'
    · rw [processFiles_skip h]
      exact List.mem_cons_self _ _
    · cases hq : lookupFS fs q with
      | none =>
        rw [processFiles_skip hq]
        exact List.mem_cons_of_mem _ (ih hmem' h)
      | some c =>
        by_cases hch : transform c = c
        · rw [processFiles_nochange hq hch]
          exact List.mem_cons_of_mem _ (ih hmem' h)
        · rw [processFiles_fixed hq hch]
          exact List.mem_cons_of_mem _ (ih hmem' (lookupFS_writeFS_other h))

theorem processFiles_writes_shape (fs : List (List Char × List Char))
    (paths : List (List Char)) :
    ∀ x ∈ (processFiles fs paths).writes, ∃ c, x.2 = transform c ∧ transform c ≠ c := by
  induction paths generalizing fs with
  | nil => intro x hx; cases hx
  | cons q ps ih =>
    intro x hx
    cases hq : lookupFS fs q with
    | none =>
      rw [processFiles_skip hq] at hx
      exact ih fs x hx
    | some c =>
      by_cases hch : transform c = c
      · rw [processFiles_nochange hq hch] at hx
        exact ih fs x hx
      · rw [processFiles_fixed hq hch] at hx
        rcases List.mem_cons.mp hx with rfl | hx'
        · exact ⟨c, rfl, hch⟩
        · exact ih (writeFS fs q (transform c)) x hx'

theorem processFiles_write_changed {fs : List (List Char × List Char)}
    {paths : List (List Char)} {q c : List Char} (hmem : q ∈ paths)
    (h : lookupFS fs q = some c) (hch : transform c ≠ c) :
    (q, transform c) ∈ (processFiles fs paths).writes := by
  induction paths generalizing fs with
  | nil => cases hmem
  | cons q' ps ih =>
    rcases List.mem_cons.mp hmem with rfl | hmem'
    · rw [processFiles_fixed h hch]
      exact List.mem_cons_self _ _
    · cases hq : lookupFS fs q' with
      | none =>
        rw [processFiles_skip hq]
        exact ih hmem' h
      | some c' =>
        by_cases hch' : transform c' = c'
        · rw [processFiles_nochange hq hch']
          exact ih hmem' h
        · rw [processFiles_fixed hq hch']
          by_cases hqq : q' = q
          · subst hqq
            rw [h] at hq
            injection hq with hcc
            subst hcc
            exact List.mem_cons_self _ _
          · exact List.mem_cons_of_mem _ (ih hmem' (by rw [lookupFS_writeFS_ne hqq]; exact h))

theorem isPrefixOf_fixed_skip (p : List Char) :
    "FIXED: ".data.isPrefixOf ("SKIP: ".data ++ p ++ " not found".data) = false := rfl

theorem isPrefixOf_fixed_nochange (p : List Char) :
    "FIXED: ".data.isPrefixOf ("NO CHANGE: ".data ++ p) = false := rfl

theorem isPrefixOf_fixed_fixed (p : List Char) :
    "FIXED: ".data.isPrefixOf ("FIXED: ".data ++ p) = true := by
  have hgen : ∀ (l t : List Char), l.isPrefixOf (l ++ t) = true := by
    intro l
    induction l with
    | nil => intro t; simp [List.isPrefixOf]
    | cons a l ih => intro t; simp [List.isPrefixOf, ih]
  exact hgen _ _

theorem processFiles_count_fixedlines (fs : List (List Char × List Char))
    (paths : List (List Char)) :
    (processFiles fs paths).count =
      (processFiles fs paths).prints.countP
        (fun l => "FIXED: ".data.isPrefixOf l) := by
  induction paths generalizing fs with
  | nil => rfl
  | cons p ps ih =>
    cases h : lookupFS fs p with
    | none =>
      rw [processFiles_skip h]
      simp [List.countP_cons, isPrefixOf_fixed_skip, ih]
    | some c =>
      by_cases hch : transform c = c
      · rw [processFiles_nochange h hch]
        simp [List.countP_cons, isPrefixOf_fixed_nochange, ih]
      · rw [processFiles_fixed h hch]
        simp [List.countP_cons, isPrefixOf_fixed_fixed, ih]

theorem emit_cons (l : List Char) (ls : List (List Char)) :
    emit (l :: ls) = l ++ '\n' :: emit ls := rfl

theorem emit_append (a b : List (List Char)) : emit (a ++ b) = emit a ++ emit b := by
  induction a with
  | nil => rfl
  | cons l a ih =>
    rw [List.cons_append, emit_cons, ih, emit_cons]
    simp

theorem console_lines (fs : List (List Char × List Char)) (paths : List (List Char)) :
    console fs paths =
      emit ((processFiles fs paths).prints ++
        ([] :: ["Total files fixed: ".data ++ natChars (processFiles fs paths).count])) := by
  unfold console
  rw [emit_append, emit_append]
  simp [emit]

end FixSuper

namespace FixSuper

theorem processFiles_no_write_unchanged {fs : List (List Char × List Char)}
    {paths : List (List Char)} {p c : List Char} (h : lookupFS fs p = some c)
    (hch : transform c = c) : ∀ x ∈ (processFiles fs paths).writes, x.1 ≠ p := by
  induction paths generalizing fs with
  | nil => intro x hx; cases hx
  | cons q' ps ih =>
    intro x hx
    cases hq : lookupFS fs q' with
    | none =>
      rw [processFiles_skip hq] at hx
      exact ih h x hx
    | some c' =>
      by_cases hch' : transform c' = c'
      · rw [processFiles_nochange hq hch'] at hx
        exact ih h x hx
      · rw [processFiles_fixed hq hch'] at hx
        rcases List.mem_cons.mp hx with rfl | hx'
        · intro hqp
          simp only [] at hqp
          subst hqp
          rw [h] at hq
          injection hq with hcc
          subst hcc
          exact hch' hch
        · by_cases hqp : q' = p
          · subst hqp
            rw [h] at hq
            injection hq with hcc
            subst hcc
            exact absurd hch hch'
          · exact ih (by rw [lookupFS_writeFS_ne hqp]; exact h) x hx'

/-- Executable sufficient condition for the transformation to leave text unchanged. -/
theorem transform_eq_self_of_checks {s : List Char} (h2 : occursTwoB s = false)
    (h1 : occursOneB s = false) : transform s = s := by
  show subOne (subTwo s) = s
  rw [subTwo_id (noMatchTwo_of_occursTwoB h2), subOne_id (noMatchOne_of_occursOneB h1)]

theorem transform_super_one : transform "super(1);".data =
    "super();\n        setWeight(1);".data := by
  show subOne (subTwo "super(1);".data) = _
  rw [subTwo_id (noMatchTwo_of_occursTwoB (by decide))]
  rw [subOne_match (show matchOne "super(1);".data = some ("1".data, []) by decide)]
  rw [subOne_nil]
  rfl

theorem wchar_detail {c : Char} (h : isWChar c = true) :
    (c.isDigit = true ∨ c = '.') ∧ c ≠ '+' ∧ c ≠ '-' ∧ c ≠ 'e' := by
  have hd : c.isDigit = true ∨ c = '.' := by
    simp only [isWChar, Bool.or_eq_true, beq_iff_eq] at h
    exact h
  refine ⟨hd, ?_, ?_, ?_⟩ <;> intro he <;> subst he <;> revert hd <;> decide

end FixSuper

namespace FixSuper

/-- C1: for every file content containing the occurrence `super(2.5, true);`,
the transformation (rule 1 then rule 2) replaces that occurrence by the three
consecutive statements `super();`, `setWeight(2.5);`, `setEnabled(true);` in
order (with the fixed indentation of the replacement template), and the
one-argument rule does not additionally rewrite any part of that occurrence:
the three statements appear verbatim in the final output. -/
theorem claim_C1 (u v : List Char) :
    ∃ u' v', transform (u ++ "super(2.5, true);".data ++ v) =
      u' ++ "super();\n        setWeight(2.5);\n        setEnabled(true);".data ++ v' := by
  have hok : ShapeTwoOk "2.5".data [' '] "true".data [] :=
    ⟨by decide, by decide, by decide, Or.inl rfl, by decide⟩
  have hhead2 : ∀ v', subTwo (('s' :: 'u' :: "per(2.5, true);".data) ++ v') =
      replace_two_params "2.5".data "true".data ++ subTwo v' := by
    intro v'
    exact subTwo_match (matchTwo_some_iff.mpr ⟨[' '], [], rfl, hok⟩)
  obtain ⟨u1, hu1⟩ := subTwo_scan u.length u "per(2.5, true);".data
    (replace_two_params "2.5".data "true".data) v le_rfl hhead2
  have hrepl : replace_two_params "2.5".data "true".data =
      's' :: 'u' :: "per();\n        setWeight(2.5);\n        setEnabled(true);".data := rfl
  rw [hrepl] at hu1
  have hhead1 : ∀ v', subOne (('s' :: 'u' ::
      "per();\n        setWeight(2.5);\n        setEnabled(true);".data) ++ v') =
      ('s' :: 'u' :: "per();\n        setWeight(2.5);\n        setEnabled(true);".data) ++
        subOne v' := by
    intro v'
    have hg : Guard1 (replace_two_params "2.5".data "true".data) :=
      guard1_replTwo (by decide) (Or.inl rfl)
    rw [hrepl] at hg
    exact subOne_pass hg v'
  obtain ⟨u2, hu2⟩ := subOne_scan u1.length u1
    "per();\n        setWeight(2.5);\n        setEnabled(true);".data
    ('s' :: 'u' :: "per();\n        setWeight(2.5);\n        setEnabled(true);".data)
    (subTwo v) le_rfl hhead1
  refine ⟨u2, subOne (subTwo v), ?_⟩
  show subOne (subTwo (u ++ "super(2.5, true);".data ++ v)) = _
  have hocc : ("super(2.5, true);".data : List Char) =
      's' :: 'u' :: "per(2.5, true);".data := rfl
  rw [hocc, hu1, hu2]

/-- C2: for every file content containing the occurrence `super(0.75);` (no
comma before the closing parenthesis), the transformation replaces that
occurrence by exactly the two consecutive statements `super();` and
`setWeight(0.75);`, which appear verbatim in the final output. -/
theorem claim_C2 (u v : List Char) :
    ∃ u' v', transform (u ++ "super(0.75);".data ++ v) =
      u' ++ "super();\n        setWeight(0.75);".data ++ v' := by
  have hok : ShapeOneOk "0.75".data := ⟨by decide, by decide⟩
  have hhead2 : ∀ v', subTwo (('s' :: 'u' :: "per(0.75);".data) ++ v') =
      ('s' :: 'u' :: "per(0.75);".data) ++ subTwo v' := by
    intro v'
    have hg : Guard2 (shapeOne "0.75".data) := guard2_shapeOne hok
    have hs1 : shapeOne "0.75".data = 's' :: 'u' :: "per(0.75);".data := rfl
    rw [hs1] at hg
    exact subTwo_pass hg v'
  obtain ⟨u1, hu1⟩ := subTwo_scan u.length u "per(0.75);".data
    ('s' :: 'u' :: "per(0.75);".data) v le_rfl hhead2
  have hhead1 : ∀ v', subOne (('s' :: 'u' :: "per(0.75);".data) ++ v') =
      replace_one_param "0.75".data ++ subOne v' := by
    intro v'
    exact subOne_match (matchOne_some_iff.mpr ⟨rfl, hok⟩)
  obtain ⟨u2, hu2⟩ := subOne_scan u1.length u1 "per(0.75);".data
    (replace_one_param "0.75".data) (subTwo v) le_rfl hhead1
  refine ⟨u2, subOne (subTwo v), ?_⟩
  show subOne (subTwo (u ++ "super(0.75);".data ++ v)) = _
  have hocc : ("super(0.75);".data : List Char) =
      's' :: 'u' :: "per(0.75);".data := rfl
  rw [hocc, hu1, hu2]
  rw [show replace_one_param "0.75".data =
    "super();\n        setWeight(0.75);".data from rfl]

/-- C3: the whole-file transformation (rule 1 followed by rule 2) is
idempotent: applying it twice equals applying it once, because neither
pattern matches anywhere in transformed output. -/
theorem claim_C3 (C : List Char) : transform (transform C) = transform C :=
  transform_idem C

/-- C4 (amended): the weight captured by either rule is always a nonempty
string over digits and the dot, and never carries a sign, scientific
notation, or a leading plus; but the grammar is `[0-9.]+`, not
"digits with at most one dot": multi-dot strings are matched too. -/
theorem claim_C4 (s : List Char) :
    (∀ w b r, matchTwo s = some (w, b, r) →
      w ≠ [] ∧ ∀ c ∈ w, (c.isDigit = true ∨ c = '.') ∧ c ≠ '+' ∧ c ≠ '-' ∧ c ≠ 'e') ∧
    (∀ w r, matchOne s = some (w, r) →
      w ≠ [] ∧ ∀ c ∈ w, (c.isDigit = true ∨ c = '.') ∧ c ≠ '+' ∧ c ≠ '-' ∧ c ≠ 'e') := by
  constructor
  · intro w b r h
    obtain ⟨ws1, ws2, _, hne, hww, _⟩ := matchTwo_some_iff.mp h
    exact ⟨hne, fun c hc => wchar_detail (hww c hc)⟩
  · intro w r h
    obtain ⟨_, hne, hww⟩ := matchOne_some_iff.mp h
    exact ⟨hne, fun c hc => wchar_detail (hww c hc)⟩

/-- C4, counterexample to the claim as stated: the weight `1..2` has two dots,
yet the one-argument rule matches `super(1..2);` and rewrites it. -/
theorem claim_C4_counterexample :
    matchOne "super(1..2);".data = some ("1..2".data, []) ∧
    subOne "super(1..2);".data = "super();\n        setWeight(1..2);".data ∧
    subOne "super(1..2);".data ≠ "super(1..2);".data := by
  have hm : matchOne "super(1..2);".data = some ("1..2".data, []) := by decide
  have hs : subOne "super(1..2);".data = "super();\n        setWeight(1..2);".data := by
    rw [subOne_match hm, subOne_nil]
    rfl
  refine ⟨hm, hs, ?_⟩
  rw [hs]
  decide

/-- C4, witness: the amended statement applied to a concrete match. -/
theorem claim_C4_witness :
    "2.5".data ≠ [] ∧ ∀ c ∈ "2.5".data,
      (c.isDigit = true ∨ c = '.') ∧ c ≠ '+' ∧ c ≠ '-' ∧ c ≠ 'e' :=
  (claim_C4 "super(2.5, true);x".data).1 "2.5".data "true".data "x".data (by decide)

/-- C5: content in which neither pattern occurs anywhere is left byte-for-byte
unchanged by the transformation. -/
theorem claim_C5 (C : List Char) (h2 : ¬ OccursTwo C) (h1 : ¬ OccursOne C) :
    transform C = C := by
  show subOne (subTwo C) = C
  rw [subTwo_id (noMatchTwo_iff.mpr h2), subOne_id (noMatchOne_iff.mpr h1)]

/-- C5, witness: `super(someVariable);` matches neither pattern and passes
through unchanged. -/
theorem claim_C5_witness :
    ¬ OccursTwo "super(someVariable);".data ∧ ¬ OccursOne "super(someVariable);".data ∧
      transform "super(someVariable);".data = "super(someVariable);".data := by
  have h2 : ¬ OccursTwo "super(someVariable);".data :=
    noMatchTwo_iff.mp (noMatchTwo_of_occursTwoB (by decide))
  have h1 : ¬ OccursOne "super(someVariable);".data :=
    noMatchOne_iff.mp (noMatchOne_of_occursOneB (by decide))
  exact ⟨h2, h1, claim_C5 _ h2 h1⟩

/-- C6: applying the two rewrite rules in the reversed order (one-argument
rule first, then two-argument rule) yields the same final text as the
implemented order, for every file content. -/
theorem claim_C6 (C : List Char) : subTwo (subOne C) = subOne (subTwo C) :=
  subTwo_subOne_comm C

/-- C7: a missing path yields a `SKIP: <path> not found` outcome line, every
listed path still gets exactly one outcome line, the missing path is never
written, and the final total counts exactly the files that were written back,
each of which was written because its transformed content differed. -/
theorem claim_C7 (fs : List (List Char × List Char)) (paths : List (List Char))
    (p : List Char) (hmem : p ∈ paths) (hmiss : lookupFS fs p = none) :
    ("SKIP: ".data ++ p ++ " not found".data) ∈ (processFiles fs paths).prints ∧
    (processFiles fs paths).prints.length = paths.length ∧
    (∀ x ∈ (processFiles fs paths).writes, x.1 ≠ p) ∧
    (processFiles fs paths).count = (processFiles fs paths).writes.length ∧
    (∀ x ∈ (processFiles fs paths).writes, ∃ c, x.2 = transform c ∧ transform c ≠ c) :=
  ⟨processFiles_skip_mem hmem hmiss, processFiles_prints_length fs paths,
    processFiles_no_write_missing hmiss, processFiles_count_writes fs paths,
    processFiles_writes_shape fs paths⟩

/-- C7, witness: a two-path run where the second path does not exist. -/
theorem claim_C7_witness :
    ("b".data ∈ ["a".data, "b".data] ∧
      lookupFS [("a".data, "x".data)] "b".data = none) ∧
    ("SKIP: ".data ++ "b".data ++ " not found".data) ∈
      (processFiles [("a".data, "x".data)] ["a".data, "b".data]).prints ∧
    (processFiles [("a".data, "x".data)] ["a".data, "b".data]).prints.length =
      (["a".data, "b".data] : List (List Char)).length ∧
    (∀ x ∈ (processFiles [("a".data, "x".data)] ["a".data, "b".data]).writes,
      x.1 ≠ "b".data) ∧
    (processFiles [("a".data, "x".data)] ["a".data, "b".data]).count =
      (processFiles [("a".data, "x".data)] ["a".data, "b".data]).writes.length ∧
    (∀ x ∈ (processFiles [("a".data, "x".data)] ["a".data, "b".data]).writes,
      ∃ c, x.2 = transform c ∧ transform c ≠ c) :=
  ⟨⟨by decide, by decide⟩, claim_C7 _ _ _ (by decide) (by decide)⟩

/-- C8: a file is written back only when its transformed text differs from
its original text: an existing unchanged file is never written, a changed
file is written with its whole transformed text at its own path, every write
carries a transformed-and-different content, and the counter counts exactly
the writes. -/
theorem claim_C8 (fs : List (List Char × List Char)) (paths : List (List Char))
    (p c q c0 : List Char) (hp : lookupFS fs p = some c) (hcp : transform c = c)
    (hq : lookupFS fs q = some c0) (hcq : transform c0 ≠ c0) (hqmem : q ∈ paths) :
    (∀ x ∈ (processFiles fs paths).writes, x.1 ≠ p) ∧
    (q, transform c0) ∈ (processFiles fs paths).writes ∧
    (∀ x ∈ (processFiles fs paths).writes, ∃ c1, x.2 = transform c1 ∧ transform c1 ≠ c1) ∧
    (processFiles fs paths).count = (processFiles fs paths).writes.length :=
  ⟨processFiles_no_write_unchanged hp hcp, processFiles_write_changed hqmem hq hcq,
    processFiles_writes_shape fs paths, processFiles_count_writes fs paths⟩

/-- C8, witness: one unchanged file and one changed file in the same run. -/
theorem claim_C8_witness :
    (lookupFS [("a".data, "x".data), ("b".data, "super(1);".data)] "a".data =
        some "x".data ∧
      transform "x".data = "x".data ∧
      lookupFS [("a".data, "x".data), ("b".data, "super(1);".data)] "b".data =
        some "super(1);".data ∧
      transform "super(1);".data ≠ "super(1);".data ∧
      "b".data ∈ ["a".data, "b".data]) ∧
    (∀ x ∈ (processFiles [("a".data, "x".data), ("b".data, "super(1);".data)]
        ["a".data, "b".data]).writes, x.1 ≠ "a".data) ∧
    ("b".data, transform "super(1);".data) ∈
      (processFiles [("a".data, "x".data), ("b".data, "super(1);".data)]
        ["a".data, "b".data]).writes ∧
    (∀ x ∈ (processFiles [("a".data, "x".data), ("b".data, "super(1);".data)]
        ["a".data, "b".data]).writes,
      ∃ c1, x.2 = transform c1 ∧ transform c1 ≠ c1) ∧
    (processFiles [("a".data, "x".data), ("b".data, "super(1);".data)]
        ["a".data, "b".data]).count =
      (processFiles [("a".data, "x".data), ("b".data, "super(1);".data)]
        ["a".data, "b".data]).writes.length := by
  have hcp : transform "x".data = "x".data :=
    transform_eq_self_of_checks (by decide) (by decide)
  have hcq : transform "super(1);".data ≠ "super(1);".data := by
    rw [transform_super_one]
    decide
  exact ⟨⟨by decide, hcp, by decide, hcq, by decide⟩,
    claim_C8 _ _ _ _ _ _ (by decide) hcp (by decide) hcq (by decide)⟩

/-- C9: the console output is one outcome line per listed path in list order
(`SKIP: <path> not found`, `FIXED: <path>`, or `NO CHANGE: <path>`), then a
blank line, then `Total files fixed: <N>`, where `N` equals the number of
FIXED outcome lines. -/
theorem claim_C9 (fs : List (List Char × List Char)) (paths : List (List Char))
    (i : Nat) (p : List Char) (hp : paths[i]? = some p) :
    (processFiles fs paths).prints.length = paths.length ∧
    ((processFiles fs paths).prints[i]? =
        some ("SKIP: ".data ++ p ++ " not found".data) ∨
      (processFiles fs paths).prints[i]? = some ("FIXED: ".data ++ p) ∨
      (processFiles fs paths).prints[i]? = some ("NO CHANGE: ".data ++ p)) ∧
    console fs paths = emit ((processFiles fs paths).prints ++
      ([] :: ["Total files fixed: ".data ++ natChars (processFiles fs paths).count])) ∧
    (processFiles fs paths).count =
      (processFiles fs paths).prints.countP (fun l => "FIXED: ".data.isPrefixOf l) :=
  ⟨processFiles_prints_length fs paths, processFiles_outcome fs paths i p hp,
    console_lines fs paths, processFiles_count_fixedlines fs paths⟩

/-- C9, witness: a one-path run. -/
theorem claim_C9_witness :
    (["a".data] : List (List Char))[0]? = some "a".data ∧
    ((processFiles [("a".data, "x".data)] ["a".data]).prints.length =
      (["a".data] : List (List Char)).length ∧
    ((processFiles [("a".data, "x".data)] ["a".data]).prints[0]? =
        some ("SKIP: ".data ++ "a".data ++ " not found".data) ∨
      (processFiles [("a".data, "x".data)] ["a".data]).prints[0]? =
        some ("FIXED: ".data ++ "a".data) ∨
      (processFiles [("a".data, "x".data)] ["a".data]).prints[0]? =
        some ("NO CHANGE: ".data ++ "a".data)) ∧
    console [("a".data, "x".data)] ["a".data] =
      emit ((processFiles [("a".data, "x".data)] ["a".data]).prints ++
        ([] :: ["Total files fixed: ".data ++
          natChars (processFiles [("a".data, "x".data)] ["a".data]).count])) ∧
    (processFiles [("a".data, "x".data)] ["a".data]).count =
      (processFiles [("a".data, "x".data)] ["a".data]).prints.countP
        (fun l => "FIXED: ".data.isPrefixOf l)) :=
  ⟨by decide, claim_C9 _ _ 0 "a".data (by decide)⟩

/-- C10: whitespace tolerance is asymmetric: the two-argument rule accepts
whitespace after the comma and before the closing parenthesis (so
`super(2.5, true );` is rewritten), while the one-argument rule requires `);`
immediately after the weight (so `super(0.75 );` is left unchanged by the
whole transformation). -/
theorem claim_C10 (ws1 ws2 : List Char) (h1 : ∀ c ∈ ws1, isPySpace c)
    (h2 : ∀ c ∈ ws2, isPySpace c) :
    matchTwo ("super(".data ++ "2.5".data ++ [','] ++ ws1 ++ "true".data ++ ws2 ++
        [')', ';']) = some ("2.5".data, "true".data, []) ∧
    transform "super(2.5, true );".data =
      "super();\n        setWeight(2.5);\n        setEnabled(true);".data ∧
    matchTwo "super(0.75 );".data = none ∧
    matchOne "super(0.75 );".data = none ∧
    transform "super(0.75 );".data = "super(0.75 );".data := by
  refine ⟨?_, ?_, by decide, by decide,
    transform_eq_self_of_checks (by decide) (by decide)⟩
  · have hok : ShapeTwoOk "2.5".data ws1 "true".data ws2 :=
      ⟨by decide, by decide, h1, Or.inl rfl, h2⟩
    have hmt : matchTwo (shapeTwo "2.5".data ws1 "true".data ws2 ++ []) =
        some ("2.5".data, "true".data, []) :=
      matchTwo_some_iff.mpr ⟨ws1, ws2, rfl, hok⟩
    simpa [shapeTwo] using hmt
  · show subOne (subTwo "super(2.5, true );".data) = _
    rw [subTwo_match (show matchTwo "super(2.5, true );".data =
        some ("2.5".data, "true".data, []) by decide), subTwo_nil]
    have hg : Guard1 (replace_two_params "2.5".data "true".data) :=
      guard1_replTwo (by decide) (Or.inl rfl)
    rw [subOne_pass hg [], subOne_nil]
    rfl

/-- C10, witness: single-space instances of the whitespace runs. -/
theorem claim_C10_witness :
    matchTwo ("super(".data ++ "2.5".data ++ [','] ++ [' '] ++ "true".data ++ [' '] ++
        [')', ';']) = some ("2.5".data, "true".data, []) ∧
    transform "super(2.5, true );".data =
      "super();\n        setWeight(2.5);\n        setEnabled(true);".data ∧
    matchTwo "super(0.75 );".data = none ∧
    matchOne "super(0.75 );".data = none ∧
    transform "super(0.75 );".data = "super(0.75 );".data :=
  claim_C10 [' '] [' '] (by decide) (by decide)

end FixSuper
